import Mathlib

/-!
Verification of the response-extraction and recovery pipeline of the
Resume-Align backend (FastAPI service).  Python strings are modelled as
`List Char`; the relevant Python string primitives (`str.strip`,
`str.replace`, `str.splitlines`, `str.find`, `str.rfind`, slicing) are
embedded below, and `json.loads` / `json.dumps` are modelled by an
executable JSON parser and serializer over an explicit JSON value type
(numbers as exact decimals; IEEE float rounding and lone surrogates are
outside the embedding).
-/

/-! ### Python string primitives -/

/-- The whitespace characters stripped by Python `str.strip()`
(ASCII subset; the source never feeds non-ASCII whitespace to `strip`). -/
def pyIsSpace (c : Char) : Bool :=
  c == ' ' || c == '\t' || c == '\n' || c == '\r' || c == '\x0b' || c == '\x0c'

/-- Python `s.strip()`: remove leading and trailing whitespace. -/
def pyStrip (s : List Char) : List Char :=
  ((s.dropWhile pyIsSpace).reverse.dropWhile pyIsSpace).reverse

/-- Worker for `listReplace`, fuelled so that it is structural recursion
(the fuel `s.length + 1` is always sufficient: each step consumes at
least one character of `s`). -/
def listReplaceAux (pat rep : List Char) : Nat → List Char → List Char
  | 0, s => s
  | _ + 1, [] => []
  | f + 1, c :: rest =>
    if pat.isPrefixOf (c :: rest) then
      rep ++ listReplaceAux pat rep f ((c :: rest).drop pat.length)
    else
      c :: listReplaceAux pat rep f rest

/-- Python `s.replace(pat, rep)` — leftmost, non-overlapping occurrences.
The source only ever calls `replace` with a non-empty literal pattern, so
the empty-pattern case (where Python would interleave `rep` everywhere)
is mapped to the identity. -/
def listReplace (s pat rep : List Char) : List Char :=
  if pat.isEmpty then s else listReplaceAux pat rep (s.length + 1) s

/-- Worker for `pySplitlines`; `cur` holds the current line reversed. -/
def pySplitlinesGo : List Char → List Char → List (List Char)
  | cur, [] => if cur.isEmpty then [] else [cur.reverse]
  | cur, '\r' :: '\n' :: rest => cur.reverse :: pySplitlinesGo [] rest
  | cur, '\r' :: rest => cur.reverse :: pySplitlinesGo [] rest
  | cur, '\n' :: rest => cur.reverse :: pySplitlinesGo [] rest
  | cur, c :: rest => pySplitlinesGo (c :: cur) rest

/-- Python `s.splitlines()` for the line terminators `\n`, `\r`, `\r\n`
(the exotic unicode terminators Python also recognises do not occur in
this code base). `""` gives `[]`, a trailing terminator produces no
trailing empty line. -/
def pySplitlines (s : List Char) : List (List Char) := pySplitlinesGo [] s

/-- Python `s.find(c)` for a single character, as `Option Nat`
(`none` plays the role of `-1`). -/
def pyFind (s : List Char) (c : Char) : Option Nat :=
  s.findIdx? (· == c)

/-- Python `s.rfind(c)` for a single character. -/
def pyRfind (s : List Char) (c : Char) : Option Nat :=
  (s.reverse.findIdx? (· == c)).map (fun i => s.length - 1 - i)

/-- Python slice `s[a:b]` for `0 ≤ a, b` (empty when `b ≤ a`). -/
def pySlice (s : List Char) (a b : Nat) : List Char :=
  (s.drop a).take (b - a)

/-! ### LaTeX recovery (`modify_cv` in both
`src/app/api/v1/endpoints/cv_modify.py` and
`src/app/api/api_v1/endpoints/cv_modify.py`) -/

/-- The marker scanned for by `modify_cv`. -/
def documentclassMarker : List Char := "\\documentclass".toList

/-- `line.strip().startswith("\\documentclass")`. -/
def isMarkerLine (l : List Char) : Bool :=
  documentclassMarker.isPrefixOf (pyStrip l)

/-- The marker-scan loop of `modify_cv`: find the first line whose
stripped content starts with `\documentclass` and keep it and everything
after it (joined back with `"\n"`); if there is no such line the raw
reply is kept unmodified. -/
def latexBody (s : List Char) : List Char :=
  match (pySplitlines s).findIdx? isMarkerLine with
  | some i => List.intercalate ['\n'] ((pySplitlines s).drop i)
  | none => s

/-- `modified_cv.replace('```latex', '').replace('```', '').strip()`. -/
def stripLatexFences (s : List Char) : List Char :=
  pyStrip (listReplace (listReplace s ("```latex".toList) []) ("```".toList) [])

/-- The LaTeX recovery stage of `modify_cv` (lines 91–97 of
`src/app/api/v1/endpoints/cv_modify.py`, lines 52–58 of the `api_v1`
twin): marker scan, then fence stripping and trimming.  It is a total
function — recovery never fails at this stage. -/
def recoverLatex (s : List Char) : List Char :=
  stripLatexFences (latexBody s)

/-- Reference definition following the specification's words: scan
top-down for the first marker line, discard all lines before it (the
marker line is kept); if not found use the original text; then strip
fences and trim. -/
def dropBeforeMarker : List (List Char) → Option (List (List Char))
  | [] => none
  | l :: ls => if isMarkerLine l then some (l :: ls) else dropBeforeMarker ls

/-- The specification's description of LaTeX recovery, assembled from
`dropBeforeMarker`. -/
def recoverLatexRef (s : List Char) : List Char :=
  stripLatexFences
    (match dropBeforeMarker (pySplitlines s) with
     | some ls => List.intercalate ['\n'] ls
     | none => s)

theorem findIdx_drop_eq_dropBeforeMarker (ls : List (List Char)) :
    (match ls.findIdx? isMarkerLine with
     | some i => some (ls.drop i)
     | none => none) = dropBeforeMarker ls := by
  induction ls with
  | nil => rfl
  | cons l ls ih =>
    by_cases h : isMarkerLine l
    · simp [dropBeforeMarker, List.findIdx?_cons, h]
    · simp only [dropBeforeMarker, List.findIdx?_cons, h, if_neg, Bool.false_eq_true,
        ite_false, List.findIdx?_succ]
      rw [← ih]
      cases hf : ls.findIdx? isMarkerLine <;> simp [hf, List.drop_succ_cons]

theorem findIdx_none_of_all_false {ls : List (List Char)}
    (h : ∀ l ∈ ls, isMarkerLine l = false) : ls.findIdx? isMarkerLine = none := by
  rw [List.findIdx?_eq_none_iff]
  intro x hx
  simp [h x hx]

/-- C1: LaTeX recovery equals the reference definition (scan for the
first `\documentclass` line, keep it and everything after it, else keep
the whole reply; then strip the ```` ```latex ```` and ```` ``` ````
fences and trim), and for every reply with no marker line the output is
the input unchanged modulo fence-stripping and trimming.  Recovery is a
total function, so it never fails at this stage. -/
theorem C1_latex_recovery :
    (∀ s : List Char, recoverLatex s = recoverLatexRef s) ∧
    (∀ s : List Char, (∀ l ∈ pySplitlines s, isMarkerLine l = false) →
      recoverLatex s = stripLatexFences s) := by
  constructor
  · intro s
    unfold recoverLatex recoverLatexRef latexBody
    rw [← findIdx_drop_eq_dropBeforeMarker]
    cases h : (pySplitlines s).findIdx? isMarkerLine <;> simp [h]
  · intro s h
    unfold recoverLatex latexBody
    rw [findIdx_none_of_all_false h]

/-- Witness for C1 at a concrete marker-free reply. -/
theorem C1_latex_recovery_witness :
    recoverLatex ("Here is your CV ```latex text``` done".toList) =
      stripLatexFences ("Here is your CV ```latex text``` done".toList) ∧
    recoverLatex ("noise\n\\documentclass[11pt]\nbody".toList) =
      recoverLatexRef ("noise\n\\documentclass[11pt]\nbody".toList) :=
  ⟨C1_latex_recovery.2 _ (by decide), C1_latex_recovery.1 _⟩

/-! ### JSON values

Model of the values produced by Python's `json` module.  Numbers are
exact decimals: an integer token becomes `jint`, a token with a
fraction or exponent becomes `jfloat m e` denoting `m * 10 ^ e`
(Python's IEEE-754 rounding of such tokens is outside the embedding;
every number appearing in this repository's payloads is integral).
`NaN`/`Infinity`/`-Infinity`, accepted by `json.loads` by default, are
explicit constructors. -/

mutual
inductive JValue where
  | null
  | bool (b : Bool)
  | jint (n : Int)
  | jfloat (m : Int) (e : Int)
  | nan
  | inf (neg : Bool)
  | str (cs : List Char)
  | arr (xs : JArr)
  | obj (kvs : JObj)
inductive JArr where
  | nil
  | cons (hd : JValue) (tl : JArr)
inductive JObj where
  | nil
  | cons (k : List Char) (v : JValue) (tl : JObj)
end

deriving instance DecidableEq for JValue, JArr, JObj

/-- Is `k` a key of the object? -/
def keyMem (k : List Char) : JObj → Bool
  | .nil => false
  | .cons k' _ tl => k' == k || keyMem k tl

/-- Python `dict.__setitem__`: replace the value at the first occurrence
of `k`, else append the pair at the end (dicts preserve first-insertion
order). -/
def setKey : JObj → List Char → JValue → JObj
  | .nil, k, v => .cons k v .nil
  | .cons k' v' tl, k, v =>
    if k' == k then .cons k' v tl else .cons k' v' (setKey tl k v)

/-- Python `dict.__getitem__` / `key in dict` lookup. -/
def lookupObj : JObj → List Char → Option JValue
  | .nil, _ => none
  | .cons k' v tl, k => if k' == k then some v else lookupObj tl k

/-- Worker for `dedupObj`. -/
def dedupGo : JObj → JObj → JObj
  | acc, .nil => acc
  | acc, .cons k v tl => dedupGo (setKey acc k v) tl

/-- Python `dict(pairs)`: duplicate keys keep the first position and the
last value. -/
def dedupObj (kvs : JObj) : JObj := dedupGo .nil kvs

mutual
def wfV : JValue → Bool
  | .arr xs => wfA xs
  | .obj kvs => wfO kvs
  | _ => true
def wfA : JArr → Bool
  | .nil => true
  | .cons v tl => wfV v && wfA tl
def wfO : JObj → Bool
  | .nil => true
  | .cons k v tl => !keyMem k tl && wfV v && wfO tl
end

mutual
def jsizeV : JValue → Nat
  | .arr xs => 1 + jsizeA xs
  | .obj kvs => 1 + jsizeO kvs
  | _ => 1
def jsizeA : JArr → Nat
  | .nil => 1
  | .cons v tl => 1 + jsizeV v + jsizeA tl
def jsizeO : JObj → Nat
  | .nil => 1
  | .cons _ v tl => 1 + jsizeV v + jsizeO tl
end

/-! ### Parser (model of `json.loads`)

Whitespace, grammar, strict rejection of raw control characters in
strings, acceptance of `NaN`/`Infinity`/`-Infinity`, and the
`dict(pairs)` duplicate-key policy follow the Python `json` module.
Lone UTF-16 surrogates (which Python would keep inside a `str`) are not
representable as Lean `Char` and are rejected.  Recursion is fuelled;
`loads` passes fuel `2 * length + 2`, sufficient because every two fuel
steps consume at least one input character. -/

def isJsonWs (c : Char) : Bool :=
  c == ' ' || c == '\t' || c == '\n' || c == '\r'

def skipWs (s : List Char) : List Char := s.dropWhile isJsonWs

def digitVal (c : Char) : Nat := c.toNat - 48

def digitsVal (l : List Char) : Nat :=
  l.foldl (fun a c => 10 * a + digitVal c) 0

def fromHexChar (c : Char) : Option Nat :=
  if '0' ≤ c ∧ c ≤ '9' then some (c.toNat - 48)
  else if 'a' ≤ c ∧ c ≤ 'f' then some (c.toNat - 87)
  else if 'A' ≤ c ∧ c ≤ 'F' then some (c.toNat - 55)
  else none

/-- The single-character escapes of the JSON string grammar. -/
def escDecode : Char → Option Char
  | '"' => some '"'
  | '\\' => some '\\'
  | '/' => some '/'
  | 'b' => some '\x08'
  | 'f' => some '\x0c'
  | 'n' => some '\n'
  | 'r' => some '\r'
  | 't' => some '\t'
  | _ => none

/-- String-body scanner (`py_scanstring`): reads up to the closing
quote, decoding escapes; raw control characters are rejected (strict
mode).  Fuelled for structural recursion; fuel `length + 1` suffices. -/
def parseStrBody : Nat → List Char → Option (List Char × List Char)
  | 0, _ => none
  | _ + 1, [] => none
  | _ + 1, '"' :: rest => some ([], rest)
  | f + 1, '\\' :: c :: rest =>
    if c == 'u' then
      match rest with
      | h1 :: h2 :: h3 :: h4 :: rest2 =>
        match fromHexChar h1, fromHexChar h2, fromHexChar h3, fromHexChar h4 with
        | some a, some b, some c3, some d =>
          let n := ((a * 16 + b) * 16 + c3) * 16 + d
          if 0xD800 ≤ n ∧ n ≤ 0xDBFF then
            match rest2 with
            | '\\' :: 'u' :: g1 :: g2 :: g3 :: g4 :: rest3 =>
              match fromHexChar g1, fromHexChar g2, fromHexChar g3, fromHexChar g4 with
              | some a2, some b2, some c2, some d2 =>
                let m := ((a2 * 16 + b2) * 16 + c2) * 16 + d2
                if 0xDC00 ≤ m ∧ m ≤ 0xDFFF then
                  (parseStrBody f rest3).map
                    (fun p => (Char.ofNat (0x10000 + (n - 0xD800) * 0x400 + (m - 0xDC00)) :: p.1, p.2))
                else none
              | _, _, _, _ => none
            | _ => none
          else if 0xDC00 ≤ n ∧ n ≤ 0xDFFF then none
          else (parseStrBody f rest2).map (fun p => (Char.ofNat n :: p.1, p.2))
        | _, _, _, _ => none
      | _ => none
    else
      match escDecode c with
      | some d => (parseStrBody f rest).map (fun p => (d :: p.1, p.2))
      | none => none
  | f + 1, c :: rest =>
    if c.toNat < 32 then none
    else (parseStrBody f rest).map (fun p => (c :: p.1, p.2))

def takeDigits (s : List Char) : List Char × List Char :=
  (s.takeWhile Char.isDigit, s.dropWhile Char.isDigit)

def applySign (neg : Bool) (n : Nat) : Int :=
  if neg then -(n : Int) else (n : Int)

/-- Mantissa/exponent of a float token: integer digits `ival`, fraction
digits `fds`, exponent value `ev`. -/
def mkFloat (neg : Bool) (ival : Nat) (fds : List Char) (ev : Int) : JValue :=
  .jfloat (applySign neg (ival * 10 ^ fds.length + digitsVal fds)) (ev - fds.length)

/-- `[eE][-+]?digits`; consumed only when at least one digit follows. -/
def parseExpDigits (sgn : Bool) (rest : List Char) : Option (Int × List Char) :=
  match rest with
  | d :: _ =>
    if d.isDigit then
      let p := takeDigits rest
      some (if sgn then -(digitsVal p.1 : Int) else (digitsVal p.1 : Int), p.2)
    else none
  | [] => none

def parseExpPart : List Char → Option (Int × List Char)
  | c :: '+' :: rest2 =>
    if c == 'e' || c == 'E' then parseExpDigits false rest2 else none
  | c :: '-' :: rest2 =>
    if c == 'e' || c == 'E' then parseExpDigits true rest2 else none
  | c :: rest =>
    if c == 'e' || c == 'E' then parseExpDigits false rest else none
  | [] => none

/-- `\.\d+`; consumed only when the dot is followed by a digit. -/
def fracScan : List Char → Option (List Char × List Char)
  | '.' :: d :: rest => if d.isDigit then some (takeDigits (d :: rest)) else none
  | _ => none

/-- Fraction and exponent of a number token (regex
`(0|[1-9]\d*)(\.\d+)?([eE][-+]?\d+)?`): an integer-only token gives
`jint`, otherwise `jfloat`. -/
def parseNumTail (neg : Bool) (ival : Nat) (r : List Char) : Option (JValue × List Char) :=
  match fracScan r with
  | some (fds, r2) =>
    match parseExpPart r2 with
    | some (ev, r3) => some (mkFloat neg ival fds ev, r3)
    | none => some (mkFloat neg ival fds 0, r2)
  | none =>
    match parseExpPart r with
    | some (ev, r3) => some (mkFloat neg ival [] ev, r3)
    | none => some (.jint (applySign neg ival), r)

/-- The integer part after the optional sign: `0|[1-9]\d*`. -/
def parseNumAfterSign (neg : Bool) (s1 : List Char) : Option (JValue × List Char) :=
  match s1 with
  | '0' :: r => parseNumTail neg 0 r
  | c :: _ =>
    if c.isDigit && c != '0' then
      let p := takeDigits s1
      parseNumTail neg (digitsVal p.1) p.2
    else none
  | [] => none

def parseNum (s : List Char) : Option (JValue × List Char) :=
  match s with
  | '-' :: r => parseNumAfterSign true r
  | r => parseNumAfterSign false r

mutual
/-- One JSON value (`scan_once`), starting exactly at the value's first
character (callers have skipped whitespace). -/
def parseVal : Nat → List Char → Option (JValue × List Char)
  | 0, _ => none
  | f + 1, s =>
    match s with
    | '\x7b' :: r =>
      (match skipWs r with
       | '\x7d' :: r2 => some (.obj .nil, r2)
       | r2 => (parseMembers f r2).map (fun p => (JValue.obj (dedupObj p.1), p.2)))
    | '[' :: r =>
      (match skipWs r with
       | ']' :: r2 => some (.arr .nil, r2)
       | r2 => (parseElems f r2).map (fun p => (JValue.arr p.1, p.2)))
    | '"' :: r => (parseStrBody (r.length + 1) r).map (fun p => (JValue.str p.1, p.2))
    | 't' :: r => if ['r', 'u', 'e'].isPrefixOf r then some (.bool true, r.drop 3) else none
    | 'f' :: r => if ['a', 'l', 's', 'e'].isPrefixOf r then some (.bool false, r.drop 4) else none
    | 'n' :: r => if ['u', 'l', 'l'].isPrefixOf r then some (.null, r.drop 3) else none
    | 'N' :: r => if ['a', 'N'].isPrefixOf r then some (.nan, r.drop 2) else none
    | 'I' :: r =>
      if ['n', 'f', 'i', 'n', 'i', 't', 'y'].isPrefixOf r then some (.inf false, r.drop 7)
      else none
    | '-' :: r =>
      if ['I', 'n', 'f', 'i', 'n', 'i', 't', 'y'].isPrefixOf r then some (.inf true, r.drop 8)
      else parseNum ('-' :: r)
    | c :: rest => if c.isDigit then parseNum (c :: rest) else none
    | [] => none
/-- Members of a non-empty object, positioned at the opening quote of a
key; returns the raw pair list (deduplicated by the caller, as Python
builds the pair list and then `dict(pairs)`). -/
def parseMembers : Nat → List Char → Option (JObj × List Char)
  | 0, _ => none
  | f + 1, s =>
    match s with
    | '"' :: r =>
      (match parseStrBody (r.length + 1) r with
       | some (k, r1) =>
         (match skipWs r1 with
          | ':' :: r2 =>
            (match parseVal f (skipWs r2) with
             | some (v, r3) =>
               (match skipWs r3 with
                | ',' :: r4 =>
                  (parseMembers f (skipWs r4)).map (fun p => (JObj.cons k v p.1, p.2))
                | '\x7d' :: r4 => some (JObj.cons k v .nil, r4)
                | _ => none)
             | none => none)
          | _ => none)
       | none => none)
    | _ => none
/-- Elements of a non-empty array, positioned at an element start. -/
def parseElems : Nat → List Char → Option (JArr × List Char)
  | 0, _ => none
  | f + 1, s =>
    match parseVal f s with
    | some (v, r) =>
      (match skipWs r with
       | ',' :: r2 => (parseElems f (skipWs r2)).map (fun p => (JArr.cons v p.1, p.2))
       | ']' :: r2 => some (JArr.cons v .nil, r2)
       | _ => none)
    | none => none
end

/-- `json.loads`: skip leading whitespace, scan one value, require only
whitespace after it. -/
def loads (s : List Char) : Option JValue :=
  match parseVal (2 * s.length + 2) (skipWs s) with
  | some (v, r) => if (skipWs r).isEmpty then some v else none
  | none => none

/-! ### Serializer (model of `json.dumps`)

Default separators `", "` and `": "`; strings escaped as by
`json.dumps(..., ensure_ascii=False)` (quote, backslash, and control
characters; everything else passed through).  A `jfloat m e` is emitted
in the exact scientific form `<m>e<e>`, a decimal spelling of the same
numeric value (Python's shortest-repr float formatting is outside the
embedding). -/

def hexDigitChar (n : Nat) : Char :=
  Char.ofNat (if n < 10 then 48 + n else 87 + n)

def escapeChar (c : Char) : List Char :=
  if c == '"' then ['\\', '"']
  else if c == '\\' then ['\\', '\\']
  else if c == '\n' then ['\\', 'n']
  else if c == '\r' then ['\\', 'r']
  else if c == '\t' then ['\\', 't']
  else if c == '\x08' then ['\\', 'b']
  else if c == '\x0c' then ['\\', 'f']
  else if c.toNat < 32 then
    ['\\', 'u', '0', '0', hexDigitChar (c.toNat / 16), hexDigitChar (c.toNat % 16)]
  else [c]

def escapeList : List Char → List Char
  | [] => []
  | c :: rest => escapeChar c ++ escapeList rest

def serStr (cs : List Char) : List Char := '"' :: (escapeList cs ++ ['"'])

/-- Decimal digits of a natural number, most significant first; fuelled
for structural recursion (`n + 1` steps always suffice). -/
def natDigitsAux : Nat → Nat → List Char
  | 0, _ => []
  | f + 1, n =>
    if n < 10 then [Char.ofNat (48 + n)]
    else natDigitsAux f (n / 10) ++ [Char.ofNat (48 + n % 10)]

def natDigits (n : Nat) : List Char := natDigitsAux (n + 1) n

def intDigits (n : Int) : List Char :=
  if n < 0 then '-' :: natDigits n.natAbs else natDigits n.natAbs

mutual
def serVal : JValue → List Char
  | .jint n => intDigits n
  | .null => ['n', 'u', 'l', 'l']
  | .jfloat m e => intDigits m ++ 'e' :: intDigits e
  | .bool true => ['t', 'r', 'u', 'e']
  | .str cs => serStr cs
  | .bool false => ['f', 'a', 'l', 's', 'e']
  | .nan => ['N', 'a', 'N']
  | .inf false => ['I', 'n', 'f', 'i', 'n', 'i', 't', 'y']
  | .inf true => ['-', 'I', 'n', 'f', 'i', 'n', 'i', 't', 'y']
  | .arr .nil => ['[', ']']
  | .arr xs => '[' :: (serElems xs ++ [']'])
  | .obj .nil => ['\x7b', '\x7d']
  | .obj kvs => '\x7b' :: (serMembers kvs ++ ['\x7d'])
def serElems : JArr → List Char
  | .nil => []
  | .cons v .nil => serVal v
  | .cons v tl => serVal v ++ ',' :: ' ' :: serElems tl
def serMembers : JObj → List Char
  | .nil => []
  | .cons k v .nil => serStr k ++ ':' :: ' ' :: serVal v
  | .cons k v tl => serStr k ++ ':' :: ' ' :: (serVal v ++ ',' :: ' ' :: serMembers tl)
end

/-- `json.dumps` with default keyword arguments except
`ensure_ascii=False` (see the serializer comment). -/
def dumps (v : JValue) : List Char := serVal v

/-! ### Python `int()` coercion -/

/-- Digit run with single underscores allowed between digits, as in
Python `int(str)`; the flag records whether the previous character was a
digit.  Returns the digits with underscores removed. -/
def underscoreDigits : List Char → Bool → Option (List Char)
  | [], st => if st then some [] else none
  | '_' :: rest, true => underscoreDigits rest false
  | c :: rest, _ =>
    if c.isDigit then (underscoreDigits rest true).map (c :: ·) else none

/-- Python `int(s)` for an ASCII string: strip whitespace, optional
sign, then digits (single underscores between digits allowed). -/
def pyIntOfString (s : List Char) : Option Int :=
  match pyStrip s with
  | '+' :: r => (underscoreDigits r false).map (fun ds => (digitsVal ds : Int))
  | '-' :: r => (underscoreDigits r false).map (fun ds => -(digitsVal ds : Int))
  | r => (underscoreDigits r false).map (fun ds => (digitsVal ds : Int))

/-- Python `int(x)` on a JSON value: identity on ints, truncation toward
zero on floats, string parsing, bool widening; `None`, containers,
`nan` and the infinities raise (`none`). -/
def pyInt : JValue → Option Int
  | .jint n => some n
  | .jfloat m e =>
    some (if 0 ≤ e then m * (10 : Int) ^ e.toNat else Int.tdiv m ((10 : Int) ^ (-e).toNat))
  | .str cs => pyIntOfString cs
  | .bool b => some (if b then 1 else 0)
  | _ => none

/-! ### Strategy A — `modify_cv_json`
(`src/app/api/v1/endpoints/cv_modify.py`, lines 236–263) -/

/-- The bracket-narrowing step of `clean_json_string`: slice from the
first `\x7b` to the last `\x7d` inclusive; if either bracket is absent
(`find`/`rfind` returned `-1`) the string is left unchanged. -/
def bracketSlice (t : List Char) : List Char :=
  match pyFind t '\x7b', pyRfind t '\x7d' with
  | some a, some b => pySlice t a (b + 1)
  | _, _ => t

/-- `clean_json_string`: strip, remove ```` ```json ````/```` ``` ````,
strip again, then the bracket-narrowing step. -/
def cleanJsonString (s : List Char) : List Char :=
  bracketSlice
    (pyStrip (listReplace (listReplace (pyStrip s) ("```json".toList) []) ("```".toList) []))

/-- Strategy A JSON recovery in `modify_cv_json`: parse directly; on
failure clean and parse again; on a second failure the HTTP 500 detail
carries the cleaned text (the "pretty" re-parse in the source is dead
code: it only runs when `json.loads(cleaned)` has already failed, so
`pretty` stays equal to `cleaned`). -/
def modifyCvJsonRecover (s : List Char) : Except (List Char) JValue :=
  match loads s with
  | some v => .ok v
  | none =>
    match loads (cleanJsonString s) with
    | some v => .ok v
    | none => .error (cleanJsonString s)

/-! ### Strategy B — `match_cv_description`
(`src/app/api/v1/endpoints/jobs.py`, lines 188–201) -/

/-- Structured model of the Python exceptions raised inside the `try`
of `match_cv_description`; the HTTP detail embeds `str(e)`. -/
inductive PyExn where
  | jsonDecodeError
  | missingField (key : List Char)
  | invalidIntLiteral (lit : List Char)
  | intCoercionError
deriving DecidableEq

inductive ScoreErr where
  | noMatch (raw : List Char)
  | exn (raw : List Char) (e : PyExn)
deriving DecidableEq

def scoreErrRaw : ScoreErr → List Char
  | .noMatch raw => raw
  | .exn raw _ => raw

/-- `re.search(r'\x7b.*\x7d', result, re.DOTALL)`: leftmost-longest
match, i.e. from the first `\x7b` to the last `\x7d` provided the
latter comes after the former. -/
def braceExtract (s : List Char) : Option (List Char) :=
  match pyFind s '\x7b', pyRfind s '\x7d' with
  | some i, some j => if i < j then some (pySlice s i (j + 1)) else none
  | _, _ => none

def scoreKeys : List (List Char) :=
  ["fair_match".toList, "exp_level".toList, "skill".toList, "industry_exp".toList]

/-- The coercion loop `parsed[key] = int(parsed[key])` over the four
required keys, in source order; the first failure raises. -/
def coerceKeys : List (List Char) → JObj → Except PyExn JObj
  | [], kvs => .ok kvs
  | k :: ks, kvs =>
    match lookupObj kvs k with
    | none => .error (.missingField k)
    | some v =>
      match pyInt v with
      | none =>
        .error (match v with
                | .str cs => .invalidIntLiteral cs
                | _ => .intCoercionError)
      | some n => coerceKeys ks (setKey kvs k (.jint n))

/-- Strategy B alignment-score recovery in `match_cv_description`:
regex-extract the brace-delimited substring, `json.loads` it, then
coerce the four required keys to `int`.  The non-object case after a
successful parse is unreachable (the extract starts with `\x7b`). -/
def matchCvRecover (result : List Char) : Except ScoreErr JObj :=
  match braceExtract result with
  | none => .error (.noMatch result)
  | some sub =>
    match loads sub with
    | none => .error (.exn result .jsonDecodeError)
    | some (.obj kvs) =>
      match coerceKeys scoreKeys kvs with
      | .ok kvs' => .ok kvs'
      | .error e => .error (.exn result e)
    | some _ => .error (.exn result .intCoercionError)

/-! ### Job ranking orchestrator — `match_jobs`
(`src/app/api/v1/endpoints/jobs.py` lines 114–140 and the identical
loop of `src/app/api/api_v1/endpoints/jobs.py` lines 116–142) -/

structure Posting where
  job_title : List Char
  employer_name : List Char
  job_description : List Char
  job_apply_link : List Char
deriving DecidableEq

/-- One `{"job_index": ..., "alignment": ...}` element of the recovered
ranking array (`job_index` an integer, `alignment` copied verbatim). -/
structure RankEntry where
  job_index : Int
  alignment : JValue
deriving DecidableEq

structure RankedMatch where
  job_title : List Char
  employer_name : List Char
  alignment : JValue
  job_url : List Char
  job_description : List Char
deriving DecidableEq

def mkRanked (job : Posting) (m : RankEntry) : RankedMatch :=
  ⟨job.job_title, job.employer_name, m.alignment, job.job_apply_link, job.job_description⟩

/-- The result-formatting loop of `match_jobs`: for each entry compute
`idx = job_index - 1`, emit a joined `RankedMatch` when
`0 <= idx < len(jobs_data)`, silently skip otherwise. -/
def formatMatches (jobsData : List Posting) : List RankEntry → List RankedMatch
  | [] => []
  | m :: tl =>
    if 0 ≤ m.job_index - 1 ∧ m.job_index - 1 < (jobsData.length : Int) then
      match jobsData[(m.job_index - 1).toNat]? with
      | some job => mkRanked job m :: formatMatches jobsData tl
      | none => formatMatches jobsData tl
    else formatMatches jobsData tl

/-- The specification's description: one `RankedMatch` per entry whose
`job_index` lies in `[1, len postings]`, joined by index, order
preserved, out-of-range entries dropped. -/
def formatMatchesRef (jobsData : List Posting) (tms : List RankEntry) : List RankedMatch :=
  tms.filterMap (fun m =>
    if 1 ≤ m.job_index ∧ m.job_index ≤ (jobsData.length : Int) then
      (jobsData[(m.job_index - 1).toNat]?).map (fun job => mkRanked job m)
    else none)

/-! ### LLM gateway — `call_openai_llm`
(`src/app/utils/llm_client.py`, lines 28–40) -/

/-- Outcome of `requests.post`: an exception (timeout, connection
error), or a response with its HTTP status and JSON body (`none` when
`response.json()` raises). -/
inductive HttpResult where
  | exn (msg : List Char)
  | resp (status : Nat) (body : Option JValue)

/-- The fixed `timeout=30` argument of the single `requests.post` call. -/
def llmTimeoutSeconds : Nat := 30

/-- `result["choices"][0]["message"]["content"]`; `none` models the
`KeyError`/`IndexError`/`TypeError` raised when the path is absent. -/
def choicesContent (body : JValue) : Option JValue :=
  match body with
  | .obj kvs =>
    (match lookupObj kvs ("choices".toList) with
     | some (.arr (.cons first _)) =>
       (match first with
        | .obj kvs1 =>
          (match lookupObj kvs1 ("message".toList) with
           | some (.obj kvs2) => lookupObj kvs2 ("content".toList)
           | _ => none)
        | _ => none)
     | _ => none)
  | _ => none

/-- `call_openai_llm`: exactly one request; `raise_for_status` raises
for HTTP 4xx/5xx; every exception is caught, printed (log only) and
mapped to `None`.  A JSON `null` content is returned as the Python
`None` object, indistinguishable from the failure sentinel, so it is
also `none` here. -/
def call_openai_llm (r : HttpResult) : Option JValue :=
  match r with
  | .exn _ => none
  | .resp st body =>
    if 400 ≤ st ∧ st < 600 then none
    else
      match body with
      | none => none
      | some b =>
        match choicesContent b with
        | some JValue.null => none
        | some v => some v
        | none => none

/-! ### Document rendering tail of `modify_cv`
(`src/app/api/v1/endpoints/cv_modify.py` lines 122–147,
`src/app/api/api_v1/endpoints/cv_modify.py` lines 78–98) -/

/-- Outcome of the `pdflatex` subprocess: success (with or without the
expected `cv.pdf` appearing) or `CalledProcessError` with captured
stderr. -/
inductive CompileOutcome where
  | ok (pdfExists : Bool)
  | failed (stderr : List Char)

inductive CvModifyResp where
  | latexOk (modifiedCvLatex : List Char)
  | pdfFile
  | httpError (status : Nat) (detail : List Char)

/-- Post-compilation control flow of the `v1` `modify_cv`. -/
def renderTailV1 (asPdf : Bool) (modifiedCv : List Char) (co : CompileOutcome) : CvModifyResp :=
  match co with
  | .failed stderr =>
    if asPdf then .httpError 500 (("LaTeX to PDF conversion failed: ".toList) ++ stderr)
    else .latexOk modifiedCv
  | .ok pdfExists =>
    if asPdf then
      if pdfExists then .pdfFile else .httpError 500 ("PDF was not generated".toList)
    else .latexOk modifiedCv

/-- Post-compilation control flow of the `api_v1` `modify_cv`
(identical shape; `JSONResponse({"error": ...}, 500)` messages). -/
def renderTailApiV1 (asPdf : Bool) (modifiedCv : List Char) (co : CompileOutcome) : CvModifyResp :=
  match co with
  | .failed stderr =>
    if asPdf then .httpError 500 (("LaTeX to PDF conversion failed: ".toList) ++ stderr)
    else .latexOk modifiedCv
  | .ok pdfExists =>
    if asPdf then
      if pdfExists then .pdfFile else .httpError 500 ("PDF was not generated.".toList)
    else .latexOk modifiedCv

/-! ### Exception wrapping in `match_jobs` -/

/-- Exceptions that can escape the `try` block of `match_jobs`:
`fastapi.HTTPException` (whose `str` is `"<status>: <detail>"`) or any
other exception rendered by its message. -/
inductive PyExc where
  | http (status : Nat) (detail : List Char)
  | valueError (msg : List Char)

def strPyExc : PyExc → List Char
  | .http st d => natDigits st ++ (": ".toList) ++ d
  | .valueError m => m

/-- The `try` body: fetch result, empty-list 404, LLM/recovery result,
then the formatting loop. -/
def matchJobsBody (fetchRes : Except PyExc (List Posting))
    (llmRes : Except PyExc (List RankEntry)) : Except PyExc (List RankedMatch) :=
  match fetchRes with
  | .error e => .error e
  | .ok jobs =>
    if jobs.isEmpty then .error (.http 404 ("No jobs found from API.".toList))
    else
      match llmRes with
      | .error e => .error e
      | .ok tms => .ok (formatMatches jobs tms)

/-- `match_jobs` after text extraction: the blanket
`except Exception as e: raise HTTPException(500, f"Error: {str(e)}")`
(there is no `except HTTPException: raise` clause, so HTTP exceptions
raised inside the `try` are also re-wrapped). -/
def matchJobsTail (fetchRes : Except PyExc (List Posting))
    (llmRes : Except PyExc (List RankEntry)) : Except (Nat × List Char) (List RankedMatch) :=
  match matchJobsBody fetchRes llmRes with
  | .ok r => .ok r
  | .error e => .error (500, ("Error: ".toList) ++ strPyExc e)

/-! ### Association-object helper lemmas -/

theorem lookupObj_setKey_ne : (kvs : JObj) → (k k' : List Char) → (v : JValue) →
    k ≠ k' → lookupObj (setKey kvs k v) k' = lookupObj kvs k'
  | .nil, k, k', v, h => by
    simp only [setKey, lookupObj]
    rw [if_neg]
    simp [h]
  | .cons k0 v0 tl, k, k', v, h => by
    simp only [setKey]
    by_cases h0 : k0 == k
    · simp only [h0, if_pos, lookupObj]
      have : (k0 == k') = false := by
        have hk : k0 = k := by simpa using h0
        subst hk
        simp [h]
      simp [this]
    · simp only [h0, Bool.false_eq_true, if_neg, not_false_iff, lookupObj]
      by_cases h1 : k0 == k'
      · simp [h1]
      · simp [h1, lookupObj_setKey_ne tl k k' v h]

theorem setKey_lookup_self : (kvs : JObj) → (k : List Char) → (v : JValue) →
    lookupObj kvs k = some v → setKey kvs k v = kvs
  | .nil, k, v, h => by simp [lookupObj] at h
  | .cons k0 v0 tl, k, v, h => by
    simp only [lookupObj] at h
    simp only [setKey]
    by_cases h0 : k0 == k
    · simp only [h0, if_pos] at h ⊢
      simp only [Option.some.injEq] at h
      rw [h]
    · simp only [h0, Bool.false_eq_true, if_neg, not_false_iff] at h ⊢
      rw [setKey_lookup_self tl k v h]

theorem pyFind_drop {s : List Char} {c : Char} {i : Nat}
    (h : pyFind s c = some i) : ∃ r, s.drop i = c :: r := by
  unfold pyFind at h
  induction s generalizing i with
  | nil => simp at h
  | cons a as ih =>
    rw [List.findIdx?_cons] at h
    by_cases ha : a == c
    · simp only [ha, if_pos] at h
      have : i = 0 := by simpa using h.symm
      subst this
      exact ⟨as, by simp [(by simpa using ha : a = c)]⟩
    · simp only [ha, Bool.false_eq_true, if_neg, not_false_iff, List.findIdx?_succ,
        Option.map_eq_some'] at h
      obtain ⟨j, hj, rfl⟩ := h
      obtain ⟨r, hr⟩ := ih hj
      exact ⟨r, by simpa using hr⟩

/-! ### C2 — Strategy A recovery -/

/-- C2: Strategy A JSON recovery parses the whole reply first and
returns that value on success; on parse failure it parses the cleaned
string (fence stripping, whitespace trimming, brace-range slicing) and
returns that parse when it succeeds; the brace-narrowing step leaves
the string unchanged when either brace is absent; and on the
specification's example (leading prose + ```` ```json ````-fenced
object) the recovered value equals the parse of the fenced content
alone. -/
theorem C2_strategyA_json_recovery :
    (∀ (s : List Char) (v : JValue), loads s = some v → modifyCvJsonRecover s = .ok v) ∧
    (∀ (s : List Char) (v : JValue), loads s = none → loads (cleanJsonString s) = some v →
      modifyCvJsonRecover s = .ok v) ∧
    (∀ t : List Char, pyFind t '\x7b' = none ∨ pyRfind t '\x7d' = none →
      bracketSlice t = t) ∧
    (modifyCvJsonRecover ("Here you go:\n```json\n\x7b\"a\":1\x7d\n```".toList) =
      .ok (JValue.obj (.cons ("a".toList) (.jint 1) .nil)) ∧
     loads ("\x7b\"a\":1\x7d".toList) =
      some (JValue.obj (.cons ("a".toList) (.jint 1) .nil))) := by
  refine ⟨?_, ?_, ?_, rfl, rfl⟩
  · intro s v h
    unfold modifyCvJsonRecover
    rw [h]
  · intro s v h1 h2
    unfold modifyCvJsonRecover
    rw [h1, h2]
  · intro t h
    unfold bracketSlice
    rcases h with h | h <;> rw [h]
    cases pyFind t '\x7b' <;> rfl

/-- Witness for C2: the direct-parse branch at a clean JSON object, and
the cleaning branch at the specification's fenced example. -/
theorem C2_strategyA_json_recovery_witness :
    modifyCvJsonRecover ("\x7b\"a\": 1\x7d".toList) =
      .ok (JValue.obj (.cons ("a".toList) (.jint 1) .nil)) ∧
    modifyCvJsonRecover ("Here you go:\n```json\n\x7b\"a\":1\x7d\n```".toList) =
      .ok (JValue.obj (.cons ("a".toList) (.jint 1) .nil)) :=
  ⟨C2_strategyA_json_recovery.1 _ _ rfl,
   C2_strategyA_json_recovery.2.1 _ _ rfl rfl⟩

/-! ### C3 — Strategy B recovery, success path -/

/-- C3: for every alignment-score reply with a brace-delimited
substring, Strategy B parses the first greedy multiline `\x7b...\x7d`
match as JSON and, when the four required keys are present and
`int`-coercible, returns the parsed object with each of the four values
replaced by its integer coercion (in source order). -/
theorem C3_strategyB_recovery :
    ∀ (s sub : List Char) (kvs : JObj) (v1 v2 v3 v4 : JValue) (n1 n2 n3 n4 : Int),
      braceExtract s = some sub →
      loads sub = some (JValue.obj kvs) →
      lookupObj kvs ("fair_match".toList) = some v1 → pyInt v1 = some n1 →
      lookupObj kvs ("exp_level".toList) = some v2 → pyInt v2 = some n2 →
      lookupObj kvs ("skill".toList) = some v3 → pyInt v3 = some n3 →
      lookupObj kvs ("industry_exp".toList) = some v4 → pyInt v4 = some n4 →
      matchCvRecover s =
        .ok (setKey (setKey (setKey (setKey kvs ("fair_match".toList) (.jint n1))
              ("exp_level".toList) (.jint n2)) ("skill".toList) (.jint n3))
              ("industry_exp".toList) (.jint n4)) := by
  intro s sub kvs v1 v2 v3 v4 n1 n2 n3 n4 hext hload hl1 hp1 hl2 hp2 hl3 hp3 hl4 hp4
  have e2 : lookupObj (setKey kvs ("fair_match".toList) (.jint n1)) ("exp_level".toList) =
      some v2 := by
    rw [lookupObj_setKey_ne _ _ _ _ (by decide), hl2]
  have e3 : lookupObj (setKey (setKey kvs ("fair_match".toList) (.jint n1))
      ("exp_level".toList) (.jint n2)) ("skill".toList) = some v3 := by
    rw [lookupObj_setKey_ne _ _ _ _ (by decide),
        lookupObj_setKey_ne _ _ _ _ (by decide), hl3]
  have e4 : lookupObj (setKey (setKey (setKey kvs ("fair_match".toList) (.jint n1))
      ("exp_level".toList) (.jint n2)) ("skill".toList) (.jint n3))
      ("industry_exp".toList) = some v4 := by
    rw [lookupObj_setKey_ne _ _ _ _ (by decide),
        lookupObj_setKey_ne _ _ _ _ (by decide),
        lookupObj_setKey_ne _ _ _ _ (by decide), hl4]
  have hco : coerceKeys scoreKeys kvs =
      .ok (setKey (setKey (setKey (setKey kvs ("fair_match".toList) (.jint n1))
            ("exp_level".toList) (.jint n2)) ("skill".toList) (.jint n3))
            ("industry_exp".toList) (.jint n4)) := by
    simp only [scoreKeys, coerceKeys, hl1, hp1, e2, hp2, e3, hp3, e4, hp4]
  unfold matchCvRecover
  rw [hext]
  dsimp only
  rw [hload]
  dsimp only
  rw [hco]

/-- Witness for C3: the specification's numeric-string example recovers
to the integers 80, 70, 90, 75. -/
theorem C3_strategyB_recovery_witness :
    matchCvRecover
      ("\x7b\"fair_match\":\"80\",\"exp_level\":\"70\",\"skill\":\"90\",\"industry_exp\":\"75\"\x7d".toList) =
    .ok (JObj.cons ("fair_match".toList) (.jint 80)
          (.cons ("exp_level".toList) (.jint 70)
            (.cons ("skill".toList) (.jint 90)
              (.cons ("industry_exp".toList) (.jint 75) .nil)))) := by
  have h := C3_strategyB_recovery
    ("\x7b\"fair_match\":\"80\",\"exp_level\":\"70\",\"skill\":\"90\",\"industry_exp\":\"75\"\x7d".toList)
    ("\x7b\"fair_match\":\"80\",\"exp_level\":\"70\",\"skill\":\"90\",\"industry_exp\":\"75\"\x7d".toList)
    (JObj.cons ("fair_match".toList) (.str ("80".toList))
      (.cons ("exp_level".toList) (.str ("70".toList))
        (.cons ("skill".toList) (.str ("90".toList))
          (.cons ("industry_exp".toList) (.str ("75".toList)) .nil))))
    (.str ("80".toList)) (.str ("70".toList)) (.str ("90".toList)) (.str ("75".toList))
    80 70 90 75 rfl rfl rfl rfl rfl rfl rfl rfl rfl rfl
  exact h

/-! ### C4 — Strategy B failure conditions -/

def recoverFailed : Except ScoreErr JObj → Bool
  | .ok _ => false
  | .error _ => true

/-- One of the four required keys is missing from the object or has a
value that `int()` cannot coerce. -/
def reqKeyBad (kvs : JObj) (k : List Char) : Prop :=
  lookupObj kvs k = none ∨ ∃ v, lookupObj kvs k = some v ∧ pyInt v = none

theorem braceExtract_head {s sub : List Char}
    (h : braceExtract s = some sub) : ∃ r, sub = '\x7b' :: r := by
  unfold braceExtract at h
  cases hf : pyFind s '\x7b' with
  | none => rw [hf] at h; simp at h
  | some i =>
    cases hr : pyRfind s '\x7d' with
    | none => rw [hf, hr] at h; simp at h
    | some j =>
      rw [hf, hr] at h
      dsimp only at h
      split at h
      · next hij =>
        obtain ⟨r, hrd⟩ := pyFind_drop hf
        obtain ⟨d, hd⟩ : ∃ d, j + 1 - i = d + 1 := ⟨j - i, by omega⟩
        simp only [Option.some.injEq] at h
        refine ⟨r.take d, ?_⟩
        rw [← h]
        unfold pySlice
        rw [hrd, hd, List.take_succ_cons]
      · simp at h

theorem parseVal_brace_obj {f : Nat} {r rest : List Char} {v : JValue}
    (h : parseVal f ('\x7b' :: r) = some (v, rest)) : ∃ kvs, v = JValue.obj kvs := by
  cases f with
  | zero => simp [parseVal] at h
  | succ f =>
    simp only [parseVal] at h
    split at h
    · simp only [Option.some.injEq, Prod.mk.injEq] at h
      exact ⟨.nil, h.1.symm⟩
    · rw [Option.map_eq_some'] at h
      obtain ⟨⟨ms, r'⟩, _, hm⟩ := h
      simp only [Prod.mk.injEq] at hm
      exact ⟨dedupObj ms, hm.1.symm⟩

theorem loads_brace_obj {r : List Char} {v : JValue}
    (h : loads ('\x7b' :: r) = some v) : ∃ kvs, v = JValue.obj kvs := by
  unfold loads at h
  have hsw : skipWs ('\x7b' :: r) = '\x7b' :: r := by
    simp [skipWs, List.dropWhile_cons, isJsonWs]
  rw [hsw] at h
  cases hp : parseVal (2 * ('\x7b' :: r).length + 2) ('\x7b' :: r) with
  | none => rw [hp] at h; simp at h
  | some p =>
    obtain ⟨v', r'⟩ := p
    rw [hp] at h
    dsimp only at h
    split at h
    · simp only [Option.some.injEq] at h
      subst h
      exact parseVal_brace_obj hp
    · simp at h

def coerceFailed : Except PyExn JObj → Bool
  | .ok _ => false
  | .error _ => true

theorem coerceKeys_err_iff :
    ∀ (ks : List (List Char)) (kvs : JObj), ks.Nodup →
      (coerceFailed (coerceKeys ks kvs) = true ↔ ∃ k ∈ ks, reqKeyBad kvs k) := by
  intro ks
  induction ks with
  | nil => intro kvs _; simp [coerceKeys, coerceFailed]
  | cons k ks ih =>
    intro kvs hnd
    rw [List.nodup_cons] at hnd
    cases hl : lookupObj kvs k with
    | none =>
      simp only [coerceKeys, hl]
      constructor
      · intro _; exact ⟨k, List.mem_cons_self k ks, Or.inl hl⟩
      · intro _; rfl
    | some v =>
      cases hp : pyInt v with
      | none =>
        simp only [coerceKeys, hl, hp]
        constructor
        · intro _; exact ⟨k, List.mem_cons_self k ks, Or.inr ⟨v, hl, hp⟩⟩
        · intro _
          cases hv : v <;> rfl
      | some n =>
        simp only [coerceKeys, hl, hp]
        rw [ih (setKey kvs k (.jint n)) hnd.2]
        constructor
        · rintro ⟨k', hk', hbad⟩
          have hne : k ≠ k' := fun he => hnd.1 (he ▸ hk')
          refine ⟨k', List.mem_cons_of_mem k hk', ?_⟩
          rwa [reqKeyBad, lookupObj_setKey_ne kvs k k' _ hne, ← reqKeyBad] at hbad
        · rintro ⟨k', hk', hbad⟩
          rcases List.mem_cons.mp hk' with rfl | hk'
          · exfalso
            rcases hbad with hbad | ⟨v', hv', hp'⟩
            · rw [hl] at hbad; cases hbad
            · rw [hl] at hv'
              simp only [Option.some.injEq] at hv'
              subst hv'
              rw [hp] at hp'; cases hp'
          · have hne : k ≠ k' := fun he => hnd.1 (he ▸ hk')
            refine ⟨k', hk', ?_⟩
            rwa [reqKeyBad, lookupObj_setKey_ne kvs k k' _ hne, ← reqKeyBad]

/-- C4 exactly as stated: Strategy B recovery fails exactly when there
is no brace-delimited substring or when the parsed object lacks one of
the four required keys or has a non-coercible value. -/
def ClaimC4Stated : Prop :=
  ∀ s : List Char,
    recoverFailed (matchCvRecover s) = true ↔
      (braceExtract s = none ∨
       ∃ sub kvs, braceExtract s = some sub ∧ loads sub = some (JValue.obj kvs) ∧
         ∃ k ∈ scoreKeys, reqKeyBad kvs k)

/-- C4 is false as stated: on `"\x7boops\x7d"` a brace-delimited
substring exists but fails to parse as JSON, so recovery fails although
neither of the claim's enumerated conditions holds. -/
theorem C4_counterexample : ¬ ClaimC4Stated := by
  intro h
  have h1 := (h ("\x7boops\x7d".toList)).mp (by decide)
  have hb : braceExtract ("\x7boops\x7d".toList) = some ("\x7boops\x7d".toList) := by
    decide
  have hl : loads ("\x7boops\x7d".toList) = none := by decide
  rcases h1 with h1 | ⟨sub, kvs, hext, hload, _⟩
  · rw [hb] at h1
    cases h1
  · rw [hb] at hext
    simp only [Option.some.injEq] at hext
    subst hext
    rw [hl] at hload
    cases hload

/-- C4 amended: Strategy B recovery fails exactly when no
brace-delimited substring exists, or the extracted substring fails to
parse as JSON, or the parsed object lacks one of the four required keys
or has a non-coercible value; every failure payload carries the
original raw reply, and a `coerceKeys` failure is propagated unchanged
(so a missing key is reported by name, while a non-coercible value is
reported by the offending value, not by its key). -/
theorem C4_amended_failure_conditions :
    ∀ s : List Char,
      (recoverFailed (matchCvRecover s) = true ↔
        braceExtract s = none ∨
        ∃ sub, braceExtract s = some sub ∧
          (loads sub = none ∨
           ∃ kvs, loads sub = some (JValue.obj kvs) ∧ ∃ k ∈ scoreKeys, reqKeyBad kvs k)) ∧
      (∀ e, matchCvRecover s = .error e → scoreErrRaw e = s) ∧
      (∀ sub kvs ex, braceExtract s = some sub → loads sub = some (JValue.obj kvs) →
        coerceKeys scoreKeys kvs = .error ex → matchCvRecover s = .error (.exn s ex)) := by
  intro s
  refine ⟨?_, ?_, ?_⟩
  · cases hb : braceExtract s with
    | none =>
      have hred : matchCvRecover s = .error (.noMatch s) := by
        unfold matchCvRecover; rw [hb]
      rw [hred]
      exact iff_of_true rfl (Or.inl rfl)
    | some sub =>
      obtain ⟨r, rfl⟩ := braceExtract_head hb
      cases hl : loads ('\x7b' :: r) with
      | none =>
        have hred : matchCvRecover s = .error (.exn s .jsonDecodeError) := by
          unfold matchCvRecover; rw [hb]; dsimp only; rw [hl]
        rw [hred]
        exact iff_of_true rfl (Or.inr ⟨_, rfl, Or.inl hl⟩)
      | some v =>
        obtain ⟨kvs, rfl⟩ := loads_brace_obj hl
        have hiff := coerceKeys_err_iff scoreKeys kvs (by decide)
        cases hc : coerceKeys scoreKeys kvs with
        | ok kvs' =>
          have hred : matchCvRecover s = .ok kvs' := by
            unfold matchCvRecover; rw [hb]; dsimp only; rw [hl]; dsimp only; rw [hc]
          rw [hred]
          rw [hc] at hiff
          simp only [coerceFailed, Bool.false_eq_true, false_iff] at hiff
          apply iff_of_false
          · simp [recoverFailed]
          · rintro (hnone | ⟨sub', hext', hrest⟩)
            · cases hnone
            · injection hext' with he
              subst he
              rcases hrest with hre | ⟨kvs2, hload2, hbad⟩
              · rw [hl] at hre; cases hre
              · rw [hl] at hload2
                injection hload2 with h2
                injection h2 with h3
                subst h3
                exact hiff hbad
        | error ex =>
          have hred : matchCvRecover s = .error (.exn s ex) := by
            unfold matchCvRecover; rw [hb]; dsimp only; rw [hl]; dsimp only; rw [hc]
          rw [hred]
          rw [hc] at hiff
          exact iff_of_true rfl (Or.inr ⟨_, rfl, Or.inr ⟨kvs, hl, hiff.mp rfl⟩⟩)
  · intro e he
    cases hb : braceExtract s with
    | none =>
      have hred : matchCvRecover s = .error (.noMatch s) := by
        unfold matchCvRecover; rw [hb]
      rw [hred] at he
      injection he with h1
      rw [← h1]
      rfl
    | some sub =>
      obtain ⟨r, rfl⟩ := braceExtract_head hb
      cases hl : loads ('\x7b' :: r) with
      | none =>
        have hred : matchCvRecover s = .error (.exn s .jsonDecodeError) := by
          unfold matchCvRecover; rw [hb]; dsimp only; rw [hl]
        rw [hred] at he
        injection he with h1
        rw [← h1]
        rfl
      | some v =>
        obtain ⟨kvs, rfl⟩ := loads_brace_obj hl
        cases hc : coerceKeys scoreKeys kvs with
        | ok kvs' =>
          have hred : matchCvRecover s = .ok kvs' := by
            unfold matchCvRecover; rw [hb]; dsimp only; rw [hl]; dsimp only; rw [hc]
          rw [hred] at he
          cases he
        | error ex =>
          have hred : matchCvRecover s = .error (.exn s ex) := by
            unfold matchCvRecover; rw [hb]; dsimp only; rw [hl]; dsimp only; rw [hc]
          rw [hred] at he
          injection he with h1
          rw [← h1]
          rfl
  · intro sub kvs ex hext hload hc
    unfold matchCvRecover
    rw [hext]
    dsimp only
    rw [hload]
    dsimp only
    rw [hc]

deriving instance DecidableEq for Except

/-- Witness for the amended C4: a reply whose object lacks
`fair_match` fails with the raw reply and that key's name in the
payload. -/
theorem C4_amended_failure_conditions_witness :
    matchCvRecover ("\x7b\"exp_level\":1,\"skill\":1,\"industry_exp\":1\x7d".toList) =
      .error (.exn ("\x7b\"exp_level\":1,\"skill\":1,\"industry_exp\":1\x7d".toList)
                   (.missingField ("fair_match".toList))) :=
  (C4_amended_failure_conditions
      ("\x7b\"exp_level\":1,\"skill\":1,\"industry_exp\":1\x7d".toList)).2.2
    ("\x7b\"exp_level\":1,\"skill\":1,\"industry_exp\":1\x7d".toList)
    (JObj.cons ("exp_level".toList) (.jint 1)
      (.cons ("skill".toList) (.jint 1)
        (.cons ("industry_exp".toList) (.jint 1) .nil)))
    (.missingField ("fair_match".toList))
    (by decide) (by decide) (by decide)

/-! ### C6 — job-ranking join -/

def exJobs : List Posting :=
  [⟨"Data Engineer".toList, "Acme".toList, "Build pipelines".toList, "http://a".toList⟩,
   ⟨"ML Engineer".toList, "Globex".toList, "Train models".toList, "http://b".toList⟩,
   ⟨"Web Dev".toList, "Initech".toList, "Websites".toList, "http://c".toList⟩]

def exTms : List RankEntry := [⟨2, .jint 91⟩, ⟨99, .jint 10⟩]

/-- C6: the `match_jobs` formatting loop emits one `RankedMatch` per
recovered array element whose `job_index` lies in `[1, len postings]`,
joined with the indexed posting's title, employer, description and
apply-link, preserving array order and silently dropping out-of-range
elements; on the specification's example (indices 2 and 99 against 3
postings) exactly the index-2 match is returned. -/
theorem C6_ranking_join :
    (∀ (jobs : List Posting) (tms : List RankEntry),
      formatMatches jobs tms = formatMatchesRef jobs tms) ∧
    formatMatches exJobs exTms =
      [⟨"ML Engineer".toList, "Globex".toList, .jint 91, "http://b".toList,
        "Train models".toList⟩] := by
  constructor
  · intro jobs tms
    induction tms with
    | nil => rfl
    | cons m tl ih =>
      by_cases h : 0 ≤ m.job_index - 1 ∧ m.job_index - 1 < (jobs.length : Int)
      · have h2 : 1 ≤ m.job_index ∧ m.job_index ≤ (jobs.length : Int) := by omega
        have hlt : (m.job_index - 1).toNat < jobs.length := by omega
        simp only [formatMatches, formatMatchesRef, List.filterMap_cons, if_pos h, if_pos h2,
          List.getElem?_eq_getElem hlt]
        rw [ih]
        rfl
      · have h2 : ¬ (1 ≤ m.job_index ∧ m.job_index ≤ (jobs.length : Int)) := by omega
        simp only [formatMatches, formatMatchesRef, List.filterMap_cons, if_neg h, if_neg h2]
        exact ih
  · decide

/-! ### C7 — the LLM gateway failure contract -/

/-- C7 is false as stated: on failure `call_openai_llm` returns the
bare `None` sentinel, which carries no diagnostic detail — two failures
with different statuses/bodies, and a network exception, all produce
the identical result (the diagnostics are only printed to the log). -/
theorem C7_counterexample :
    call_openai_llm (.resp 500 (some (JValue.str ("Internal Server Error".toList)))) = none ∧
    call_openai_llm (.resp 404 none) = none ∧
    call_openai_llm (.exn ("ConnectTimeout".toList)) = none ∧
    call_openai_llm (.resp 500 (some (JValue.str ("Internal Server Error".toList)))) =
      call_openai_llm (.exn ("ConnectTimeout".toList)) := by
  refine ⟨by decide, by decide, rfl, by decide⟩

/-- A response body carrying the expected
`choices[0].message.content` path. -/
def exLlmBody : JValue :=
  .obj (.cons ("choices".toList)
    (.arr (.cons (.obj (.cons ("message".toList)
      (.obj (.cons ("content".toList) (.str ("Hello".toList)) .nil)) .nil)) .nil)) .nil)

/-- C7 amended: on any network/timeout exception, on HTTP status
400–599 (`raise_for_status`), on a non-JSON body, or on a body missing
the `choices[0].message.content` path, `call_openai_llm` returns the
bare `None` sentinel (diagnostics are printed, not returned); otherwise
it returns the content.  The call is made exactly once (the function
consumes a single `HttpResult`) with the fixed 30-second timeout. -/
theorem C7_amended_gateway :
    (∀ m, call_openai_llm (.exn m) = none) ∧
    (∀ st body, 400 ≤ st → st < 600 → call_openai_llm (.resp st body) = none) ∧
    (∀ st, call_openai_llm (.resp st none) = none) ∧
    (∀ st b, ¬(400 ≤ st ∧ st < 600) → choicesContent b = none →
      call_openai_llm (.resp st (some b)) = none) ∧
    (∀ st b v, ¬(400 ≤ st ∧ st < 600) → choicesContent b = some v → v ≠ JValue.null →
      call_openai_llm (.resp st (some b)) = some v) ∧
    llmTimeoutSeconds = 30 := by
  refine ⟨fun m => rfl, ?_, ?_, ?_, ?_, rfl⟩
  · intro st body h1 h2
    unfold call_openai_llm
    dsimp only
    rw [if_pos ⟨h1, h2⟩]
  · intro st
    unfold call_openai_llm
    dsimp only
    split <;> rfl
  · intro st b h1 h2
    unfold call_openai_llm
    dsimp only
    rw [if_neg h1]
    rw [h2]
  · intro st b v h1 h2 h3
    unfold call_openai_llm
    dsimp only
    rw [if_neg h1]
    rw [h2]
    cases v <;> first | rfl | exact absurd rfl h3

/-- Witness for the amended C7: a 503 failure yields `none`; a 200
response with the expected path yields the content. -/
theorem C7_amended_gateway_witness :
    call_openai_llm (.resp 503 (some (JValue.str ("overloaded".toList)))) = none ∧
    call_openai_llm (.resp 200 (some exLlmBody)) = some (.str ("Hello".toList)) :=
  ⟨C7_amended_gateway.2.1 503 _ (by decide) (by decide),
   C7_amended_gateway.2.2.2.2.1 200 exLlmBody _ (by decide) (by decide) (by decide)⟩

/-! ### C8 — pdflatex failure handling in `/cv/modify` -/

/-- C8: when `pdflatex` fails, a caller who requested binary output
gets HTTP 500 carrying the compiler's captured stderr; a caller who did
not request binary output still successfully receives the recovered
LaTeX text (the failure is swallowed).  Both route trees behave
identically. -/
theorem C8_render_failure_handling :
    ∀ (latex stderr : List Char),
      renderTailV1 true latex (.failed stderr) =
        .httpError 500 (("LaTeX to PDF conversion failed: ".toList) ++ stderr) ∧
      renderTailV1 false latex (.failed stderr) = .latexOk latex ∧
      renderTailApiV1 true latex (.failed stderr) =
        .httpError 500 (("LaTeX to PDF conversion failed: ".toList) ++ stderr) ∧
      renderTailApiV1 false latex (.failed stderr) = .latexOk latex := by
  intro latex stderr
  exact ⟨rfl, rfl, rfl, rfl⟩

/-! ### C9 — alignment scores are not range-checked -/

/-- C9's failing input: the endpoint's docstring promises all four
values in 0–100, but the code only coerces with `int()` and never range
checks, so a reply with `fair_match: 250` is returned successfully. -/
theorem C9_range_not_enforced :
    matchCvRecover
      ("\x7b\"fair_match\": 250, \"exp_level\": 70, \"skill\": 90, \"industry_exp\": 75\x7d".toList) =
      .ok (JObj.cons ("fair_match".toList) (.jint 250)
            (.cons ("exp_level".toList) (.jint 70)
              (.cons ("skill".toList) (.jint 90)
                (.cons ("industry_exp".toList) (.jint 75) .nil)))) ∧
    (100 : Int) < 250 := by
  exact ⟨by decide, by decide⟩

/-! ### C10 — exception wrapping in `/match-jobs/` -/

/-- C10: every exception raised after text extraction in `match_jobs`
— including the 404 raised for an empty postings list and the
upstream-status `HTTPException` propagated from the job-search fetch —
is caught by the blanket handler and re-raised as HTTP 500 with the
original message embedded (`"Error: <status>: <detail>"`), so the
endpoint's error status for those failures is always 500. -/
theorem C10_exception_wrapping :
    ∀ (fetchRes : Except PyExc (List Posting)) (llmRes : Except PyExc (List RankEntry)),
      (fetchRes = .ok [] →
        matchJobsTail fetchRes llmRes =
          .error (500, ("Error: 404: No jobs found from API.".toList))) ∧
      (∀ st d, fetchRes = .error (.http st d) →
        matchJobsTail fetchRes llmRes =
          .error (500, ("Error: ".toList) ++ natDigits st ++ (": ".toList) ++ d)) ∧
      (∀ st d, matchJobsTail fetchRes llmRes = .error (st, d) → st = 500) := by
  intro fetchRes llmRes
  refine ⟨?_, ?_, ?_⟩
  · intro h
    subst h
    rfl
  · intro st d h
    subst h
    unfold matchJobsTail matchJobsBody
    simp [strPyExc, List.append_assoc]
  · intro st d h
    unfold matchJobsTail at h
    cases hb : matchJobsBody fetchRes llmRes with
    | ok r => rw [hb] at h; cases h
    | error e =>
      rw [hb] at h
      injection h with h1
      injection h1 with h2 h3
      exact h2.symm

/-- Witness for C10: the empty-postings 404 and a concrete upstream 403
are both surfaced as 500 with the message embedded. -/
theorem C10_exception_wrapping_witness :
    matchJobsTail (.ok []) (.ok []) =
      .error (500, ("Error: 404: No jobs found from API.".toList)) ∧
    matchJobsTail (.error (.http 403 ("forbidden".toList))) (.ok []) =
      .error (500, ("Error: ".toList) ++ natDigits 403 ++ (": ".toList) ++ ("forbidden".toList)) :=
  ⟨(C10_exception_wrapping (.ok []) (.ok [])).1 rfl,
   (C10_exception_wrapping (.error (.http 403 ("forbidden".toList))) (.ok [])).2.1
     403 ("forbidden".toList) rfl⟩

/-! ### C5 — round-trip lemmas: decimal digits -/

theorem digitVal_ofNat {n : Nat} (h : n < 10) :
    digitVal (Char.ofNat (48 + n)) = n := by
  interval_cases n <;> decide

theorem isDigit_ofNat {n : Nat} (h : n < 10) :
    (Char.ofNat (48 + n)).isDigit = true := by
  interval_cases n <;> decide

theorem natDigitsAux_ne_nil : ∀ f n : Nat, n < f → natDigitsAux f n ≠ [] := by
  intro f
  induction f with
  | zero => intro n h; omega
  | succ f ih =>
    intro n h
    unfold natDigitsAux
    by_cases h10 : n < 10
    · simp [h10]
    · rw [if_neg h10]
      simp

theorem natDigitsAux_all_digit : ∀ f n : Nat, n < f →
    ∀ c ∈ natDigitsAux f n, c.isDigit = true := by
  intro f
  induction f with
  | zero => intro n h; omega
  | succ f ih =>
    intro n h c hc
    unfold natDigitsAux at hc
    by_cases h10 : n < 10
    · rw [if_pos h10] at hc
      simp only [List.mem_singleton] at hc
      subst hc
      exact isDigit_ofNat h10
    · rw [if_neg h10] at hc
      rw [List.mem_append] at hc
      rcases hc with hc | hc
      · exact ih (n / 10) (by omega) c hc
      · simp only [List.mem_singleton] at hc
        subst hc
        exact isDigit_ofNat (Nat.mod_lt _ (by omega))

theorem foldl_digits_aux : ∀ f n : Nat, n < f → ∀ a : Nat,
    List.foldl (fun x c => 10 * x + digitVal c) a (natDigitsAux f n) =
      a * 10 ^ (natDigitsAux f n).length + n := by
  intro f
  induction f with
  | zero => intro n h; omega
  | succ f ih =>
    intro n h a
    unfold natDigitsAux
    by_cases h10 : n < 10
    · rw [if_pos h10]
      simp only [List.foldl_cons, List.foldl_nil, List.length_singleton, pow_one]
      rw [digitVal_ofNat h10]
      ring
    · rw [if_neg h10, List.foldl_append, ih (n / 10) (by omega) a]
      simp only [List.foldl_cons, List.foldl_nil, List.length_append, List.length_singleton]
      rw [digitVal_ofNat (Nat.mod_lt _ (by omega))]
      have hmod : 10 * (n / 10) + n % 10 = n := Nat.div_add_mod n 10
      have hring : 10 * (a * 10 ^ (natDigitsAux f (n / 10)).length + n / 10) + n % 10
          = a * (10 ^ (natDigitsAux f (n / 10)).length * 10) + (10 * (n / 10) + n % 10) := by
        ring
      rw [hring, hmod, pow_succ]

theorem digitsVal_natDigits (n : Nat) : digitsVal (natDigits n) = n := by
  unfold digitsVal natDigits
  rw [foldl_digits_aux (n + 1) n (by omega) 0]
  simp

theorem natDigits_ne_nil (n : Nat) : natDigits n ≠ [] :=
  natDigitsAux_ne_nil (n + 1) n (by omega)

theorem natDigits_all_digit (n : Nat) : ∀ c ∈ natDigits n, c.isDigit = true :=
  natDigitsAux_all_digit (n + 1) n (by omega)

theorem natDigitsAux_head_pos : ∀ f n : Nat, n < f → n ≠ 0 →
    ∃ c l, natDigitsAux f n = c :: l ∧ c.isDigit = true ∧ c ≠ '0' := by
  intro f
  induction f with
  | zero => intro n h; omega
  | succ f ih =>
    intro n h hn
    by_cases h10 : n < 10
    · refine ⟨Char.ofNat (48 + n), [], by simp [natDigitsAux, h10], isDigit_ofNat h10, ?_⟩
      interval_cases n <;> simp_all
    · obtain ⟨c, l, hc, hd, h0⟩ := ih (n / 10) (by omega) (by omega)
      refine ⟨c, l ++ [Char.ofNat (48 + n % 10)], ?_, hd, h0⟩
      unfold natDigitsAux
      rw [if_neg h10, hc]
      rfl

theorem natDigits_head_pos {n : Nat} (hn : n ≠ 0) :
    ∃ c l, natDigits n = c :: l ∧ c.isDigit = true ∧ c ≠ '0' :=
  natDigitsAux_head_pos (n + 1) n (by omega) hn

theorem natDigits_zero : natDigits 0 = ['0'] := by decide

/-! ### Digit-run scanning -/

/-- The head of the list, if any, is not a decimal digit. -/
def headNotDigit : List Char → Prop
  | [] => True
  | c :: _ => c.isDigit = false

theorem takeWhile_digit_append {l r : List Char} (hl : ∀ c ∈ l, c.isDigit = true)
    (hr : headNotDigit r) :
    (l ++ r).takeWhile Char.isDigit = l ∧ (l ++ r).dropWhile Char.isDigit = r := by
  induction l with
  | nil =>
    simp only [List.nil_append]
    cases r with
    | nil => simp
    | cons c rs =>
      have hc : c.isDigit = false := hr
      simp [List.takeWhile_cons, List.dropWhile_cons, hc]
  | cons a l ih =>
    have ha := hl a (by simp)
    have ih' := ih (fun c hc => hl c (by simp [hc]))
    simp [List.takeWhile_cons, List.dropWhile_cons, ha, ih'.1, ih'.2]

theorem takeDigits_append {l r : List Char} (hl : ∀ c ∈ l, c.isDigit = true)
    (hr : headNotDigit r) : takeDigits (l ++ r) = (l, r) := by
  unfold takeDigits
  rw [(takeWhile_digit_append hl hr).1, (takeWhile_digit_append hl hr).2]

theorem skipWs_cons_notWs {c : Char} {l : List Char} (h : isJsonWs c = false) :
    skipWs (c :: l) = c :: l := by
  simp [skipWs, List.dropWhile_cons, h]

theorem skipWs_cons_ws {c : Char} {l : List Char} (h : isJsonWs c = true) :
    skipWs (c :: l) = skipWs l := by
  simp [skipWs, List.dropWhile_cons, h]

theorem isDigit_not_ws {c : Char} (h : c.isDigit = true) : isJsonWs c = false := by
  by_contra hne
  have ht : isJsonWs c = true := by revert hne; cases isJsonWs c <;> simp
  simp only [isJsonWs, Bool.or_eq_true, beq_iff_eq] at ht
  rcases ht with ((h1 | h1) | h1) | h1 <;> subst h1 <;> exact absurd h (by decide)

theorem digit_ne_of_not_digit {c d : Char} (h : c.isDigit = true)
    (hd : d.isDigit = false) : c ≠ d := by
  intro he
  subst he
  rw [h] at hd
  cases hd

/-! ### Number-token round trip -/

/-- What may legally follow a serialized number token: end of input or
a character that is not a digit, dot or exponent letter. -/
def NumDelim : List Char → Prop
  | [] => True
  | c :: _ => c.isDigit = false ∧ c ≠ '.' ∧ c ≠ 'e' ∧ c ≠ 'E'

theorem NumDelim_headNotDigit {r : List Char} (h : NumDelim r) : headNotDigit r := by
  cases r with
  | nil => trivial
  | cons c r' => exact h.1

theorem fracScan_none {r : List Char}
    (h : match r with | [] => True | c :: _ => c ≠ '.') : fracScan r = none := by
  cases r with
  | nil => rfl
  | cons c r' =>
    have h' : c ≠ '.' := h
    unfold fracScan
    split
    · next heq =>
      injection heq with h1 h2
      exact absurd h1 h'
    · rfl

theorem parseExpPart_none {r : List Char}
    (h : match r with | [] => True | c :: _ => c ≠ 'e' ∧ c ≠ 'E') :
    parseExpPart r = none := by
  cases r with
  | nil => rfl
  | cons c r' =>
    have h' : c ≠ 'e' ∧ c ≠ 'E' := h
    have hc : (c == 'e' || c == 'E') = false := by
      simp only [Bool.or_eq_false_iff, beq_eq_false_iff_ne]
      exact h'
    unfold parseExpPart
    split
    · next heq =>
      injection heq with h1 h2
      subst h1
      rw [hc]
      rfl
    · next heq =>
      injection heq with h1 h2
      subst h1
      rw [hc]
      rfl
    · next heq =>
      injection heq with h1 h2
      subst h1
      rw [hc]
      rfl
    · next heq => cases heq

theorem parseExpDigits_run (sgn : Bool) (m : Nat) {rest : List Char}
    (h : headNotDigit rest) :
    parseExpDigits sgn (natDigits m ++ rest) =
      some (if sgn then -(m : Int) else (m : Int), rest) := by
  obtain ⟨c, l, hcl⟩ : ∃ c l, natDigits m = c :: l := by
    cases hh : natDigits m with
    | nil => exact absurd hh (natDigits_ne_nil m)
    | cons c l => exact ⟨c, l, rfl⟩
  have hcd : c.isDigit = true := natDigits_all_digit m c (by rw [hcl]; simp)
  have ht2 : takeDigits (c :: (l ++ rest)) = (natDigits m, rest) := by
    rw [show c :: (l ++ rest) = natDigits m ++ rest by rw [hcl]; rfl]
    exact takeDigits_append (natDigits_all_digit m) h
  rw [hcl]
  show parseExpDigits sgn (c :: (l ++ rest)) = _
  unfold parseExpDigits
  split
  · next heq =>
    injection heq with h1 h2
    subst h1
    rw [if_pos hcd]
    simp only [ht2, digitsVal_natDigits]
  · next heq => cases heq

theorem parseExpPart_ser (e : Int) {rest : List Char} (h : headNotDigit rest) :
    parseExpPart ('e' :: (intDigits e ++ rest)) = some (e, rest) := by
  by_cases he : e < 0
  · unfold intDigits
    rw [if_pos he]
    show parseExpPart ('e' :: '-' :: (natDigits e.natAbs ++ rest)) = _
    unfold parseExpPart
    split
    · next heq =>
      injection heq with h1 h2
      injection h2 with h3 _
      exact absurd h3 (by decide)
    · next heq =>
      injection heq with h1 h2
      injection h2 with h3 h4
      subst h1
      rw [if_pos (show ('e' == 'e' || 'e' == 'E') = true by decide)]
      rw [← h4]
      rw [parseExpDigits_run true e.natAbs h]
      simp only [eq_self_iff_true, if_true, Option.some.injEq, Prod.mk.injEq, and_true]
      omega
    · next hno1 hno2 heq =>
      injection heq with h1 h2
      exact absurd h2.symm (fun hh => hno2 _ hh)
    · next heq => cases heq
  · unfold intDigits
    rw [if_neg he]
    obtain ⟨c, l, hcl⟩ : ∃ c l, natDigits e.natAbs = c :: l := by
      cases hh : natDigits e.natAbs with
      | nil => exact absurd hh (natDigits_ne_nil _)
      | cons c l => exact ⟨c, l, rfl⟩
    have hcd : c.isDigit = true := natDigits_all_digit _ c (by rw [hcl]; simp)
    rw [hcl]
    show parseExpPart ('e' :: c :: (l ++ rest)) = _
    unfold parseExpPart
    split
    · next heq =>
      injection heq with h1 h2
      injection h2 with h3 _
      exact absurd (h3 ▸ hcd) (by decide)
    · next heq =>
      injection heq with h1 h2
      injection h2 with h3 _
      exact absurd (h3 ▸ hcd) (by decide)
    · next heq =>
      injection heq with h1 h2
      subst h1
      rw [if_pos (show ('e' == 'e' || 'e' == 'E') = true by decide)]
      rw [← h2]
      rw [show c :: (l ++ rest) = natDigits e.natAbs ++ rest by rw [hcl]; rfl]
      rw [parseExpDigits_run false e.natAbs h]
      simp only [Bool.false_eq_true, if_false, Option.some.injEq, Prod.mk.injEq, and_true]
      omega
    · next heq => cases heq

theorem parseNumTail_int (neg : Bool) (ival : Nat) {rest : List Char} (h : NumDelim rest) :
    parseNumTail neg ival rest = some (.jint (applySign neg ival), rest) := by
  unfold parseNumTail
  rw [fracScan_none (by cases rest with | nil => trivial | cons c r => exact h.2.1)]
  dsimp only
  rw [parseExpPart_none
    (by cases rest with | nil => trivial | cons c r => exact ⟨h.2.2.1, h.2.2.2⟩)]

theorem parseNumTail_float (neg : Bool) (ival : Nat) (e : Int) {rest : List Char}
    (h : headNotDigit rest) :
    parseNumTail neg ival ('e' :: (intDigits e ++ rest)) =
      some (.jfloat (applySign neg ival) e, rest) := by
  unfold parseNumTail
  rw [fracScan_none (by exact fun hh => absurd hh (by decide))]
  dsimp only
  rw [parseExpPart_ser e h]
  dsimp only
  unfold mkFloat
  simp [digitsVal]

theorem parseNumAfterSign_run (neg : Bool) (m : Nat) {after : List Char}
    (hA : headNotDigit after) :
    parseNumAfterSign neg (natDigits m ++ after) = parseNumTail neg m after := by
  by_cases hm : m = 0
  · subst hm
    rw [natDigits_zero]
    show parseNumAfterSign neg ('0' :: after) = _
    unfold parseNumAfterSign
    split
    · next heq =>
      injection heq with _ h2
      rw [h2]
    · next hx heq =>
      injection heq with h1 _
      exact absurd h1.symm hx
    · next heq => cases heq
  · obtain ⟨c, l, hcl, hcd, hc0⟩ := natDigits_head_pos hm
    have htd : takeDigits (c :: (l ++ after)) = (natDigits m, after) := by
      rw [show c :: (l ++ after) = natDigits m ++ after by rw [hcl]; rfl]
      exact takeDigits_append (natDigits_all_digit m) hA
    rw [hcl]
    show parseNumAfterSign neg (c :: (l ++ after)) = _
    unfold parseNumAfterSign
    split
    · next heq =>
      injection heq with h1 _
      exact absurd h1 hc0
    · next heq =>
      injection heq with h1 _
      rw [← h1]
      rw [if_pos (by rw [hcd]; simp only [Bool.true_and, bne_iff_ne, ne_eq]; exact hc0)]
      simp only [htd, digitsVal_natDigits]
    · next heq => cases heq

theorem parseNum_run (neg : Bool) (m : Nat) {after : List Char}
    (hA : headNotDigit after) :
    parseNum ((if neg then ['-'] else []) ++ (natDigits m ++ after)) =
      parseNumTail neg m after := by
  by_cases hneg : neg
  · subst hneg
    show parseNum ('-' :: (natDigits m ++ after)) = _
    unfold parseNum
    split
    · next heq =>
      injection heq with _ h2
      rw [← h2, parseNumAfterSign_run true m hA]
    · next hno =>
      exact (hno _ rfl).elim
  · simp only [if_neg hneg, List.nil_append]
    have hne : neg = false := by revert hneg; cases neg <;> simp
    subst hne
    obtain ⟨c, l, hcl⟩ : ∃ c l, natDigits m = c :: l := by
      cases hh : natDigits m with
      | nil => exact absurd hh (natDigits_ne_nil m)
      | cons c l => exact ⟨c, l, rfl⟩
    have hcd : c.isDigit = true := natDigits_all_digit m c (by rw [hcl]; simp)
    rw [hcl]
    show parseNum (c :: (l ++ after)) = _
    unfold parseNum
    split
    · next heq =>
      injection heq with h1 _
      exact absurd (h1 ▸ hcd) (by decide)
    · next hno =>
      rw [show c :: (l ++ after) = natDigits m ++ after by rw [hcl]; rfl,
        parseNumAfterSign_run false m hA]

/-! ### String-body round trip -/

theorem fromHex_hexDigit {n : Nat} (h : n < 16) :
    fromHexChar (hexDigitChar n) = some n := by
  interval_cases n <;> decide

theorem parseStrBody_esc_step {c ec : Char} {k' rest : List Char} (f' : Nat)
    (hdec : escDecode ec = some c) (hu : ec ≠ 'u')
    (hrec : parseStrBody f' (escapeList k' ++ '"' :: rest) = some (k', rest)) :
    parseStrBody (f' + 1) ('\\' :: ec :: (escapeList k' ++ '"' :: rest)) =
      some (c :: k', rest) := by
  simp only [parseStrBody]
  rw [if_neg (fun hh => hu (by simpa using hh))]
  rw [hdec]
  dsimp only
  rw [hrec]
  rfl

theorem parseStrBody_u_step {c : Char} {k' rest : List Char} (f' : Nat)
    (hc : c.toNat < 32)
    (hrec : parseStrBody f' (escapeList k' ++ '"' :: rest) = some (k', rest)) :
    parseStrBody (f' + 1)
      ('\\' :: 'u' :: '0' :: '0' :: hexDigitChar (c.toNat / 16) ::
        hexDigitChar (c.toNat % 16) :: (escapeList k' ++ '"' :: rest)) =
      some (c :: k', rest) := by
  simp only [parseStrBody]
  rw [if_pos (by decide : ('u' == 'u') = true)]
  rw [show fromHexChar '0' = some 0 from by decide]
  rw [fromHex_hexDigit (show c.toNat / 16 < 16 by omega),
      fromHex_hexDigit (show c.toNat % 16 < 16 by omega)]
  dsimp only
  have hn : ((0 * 16 + 0) * 16 + c.toNat / 16) * 16 + c.toNat % 16 = c.toNat := by omega
  rw [hn]
  rw [if_neg (by omega : ¬(55296 ≤ c.toNat ∧ c.toNat ≤ 56319))]
  rw [if_neg (by omega : ¬(56320 ≤ c.toNat ∧ c.toNat ≤ 57343))]
  rw [Char.ofNat_toNat, hrec]
  rfl

theorem parseStrBody_raw_step {c : Char} {k' rest : List Char} (f' : Nat)
    (h1 : c ≠ '"') (h2 : c ≠ '\\') (h3 : ¬ c.toNat < 32)
    (hrec : parseStrBody f' (escapeList k' ++ '"' :: rest) = some (k', rest)) :
    parseStrBody (f' + 1) (c :: (escapeList k' ++ '"' :: rest)) =
      some (c :: k', rest) := by
  unfold parseStrBody
  split
  case h_1 => omega
  case h_2 heq1 heq2 => cases heq2
  case h_3 heqa heqb =>
    injection heqb with hc _
    exact absurd hc h1
  case h_4 heqa heqb =>
    injection heqb with hc _
    exact absurd hc h2
  case h_5 heqa heqb =>
    injection heqa with hf
    injection heqb with hc hX
    rw [← hf, ← hc, ← hX]
    rw [if_neg h3, hrec]
    rfl

theorem parseStrBody_ser : ∀ (k : List Char) {rest : List Char} (f : Nat), k.length < f →
    parseStrBody f (escapeList k ++ '"' :: rest) = some (k, rest) := by
  intro k
  induction k with
  | nil =>
    intro rest f hf
    obtain ⟨f', rfl⟩ : ∃ f', f = f' + 1 := ⟨f - 1, by omega⟩
    show parseStrBody (f' + 1) ('"' :: rest) = some ([], rest)
    rfl
  | cons c k' ih =>
    intro rest f hf
    obtain ⟨f', rfl⟩ : ∃ f', f = f' + 1 := ⟨f - 1, by omega⟩
    have hrec := @ih rest f' (by simp only [List.length_cons] at hf; omega)
    show parseStrBody (f' + 1) ((escapeChar c ++ escapeList k') ++ '"' :: rest) =
      some (c :: k', rest)
    rw [List.append_assoc]
    by_cases e1 : c = '"'
    · subst e1
      rw [show escapeChar '"' = ['\\', '"'] by decide]
      exact parseStrBody_esc_step f' (by decide) (by decide) hrec
    · by_cases e2 : c = '\\'
      · subst e2
        rw [show escapeChar '\\' = ['\\', '\\'] by decide]
        exact parseStrBody_esc_step f' (by decide) (by decide) hrec
      · by_cases e3 : c = '\n'
        · subst e3
          rw [show escapeChar '\n' = ['\\', 'n'] by decide]
          exact parseStrBody_esc_step f' (by decide) (by decide) hrec
        · by_cases e4 : c = '\r'
          · subst e4
            rw [show escapeChar '\r' = ['\\', 'r'] by decide]
            exact parseStrBody_esc_step f' (by decide) (by decide) hrec
          · by_cases e5 : c = '\t'
            · subst e5
              rw [show escapeChar '\t' = ['\\', 't'] by decide]
              exact parseStrBody_esc_step f' (by decide) (by decide) hrec
            · by_cases e6 : c = '\x08'
              · subst e6
                rw [show escapeChar '\x08' = ['\\', 'b'] by decide]
                exact parseStrBody_esc_step f' (by decide) (by decide) hrec
              · by_cases e7 : c = '\x0c'
                · subst e7
                  rw [show escapeChar '\x0c' = ['\\', 'f'] by decide]
                  exact parseStrBody_esc_step f' (by decide) (by decide) hrec
                · by_cases ectl : c.toNat < 32
                  · rw [show escapeChar c =
                        ['\\', 'u', '0', '0', hexDigitChar (c.toNat / 16),
                         hexDigitChar (c.toNat % 16)] from by
                      unfold escapeChar
                      rw [if_neg (fun hh => e1 (by simpa using hh)),
                          if_neg (fun hh => e2 (by simpa using hh)),
                          if_neg (fun hh => e3 (by simpa using hh)),
                          if_neg (fun hh => e4 (by simpa using hh)),
                          if_neg (fun hh => e5 (by simpa using hh)),
                          if_neg (fun hh => e6 (by simpa using hh)),
                          if_neg (fun hh => e7 (by simpa using hh)),
                          if_pos ectl]]
                    exact parseStrBody_u_step f' ectl hrec
                  · rw [show escapeChar c = [c] from by
                      unfold escapeChar
                      rw [if_neg (fun hh => e1 (by simpa using hh)),
                          if_neg (fun hh => e2 (by simpa using hh)),
                          if_neg (fun hh => e3 (by simpa using hh)),
                          if_neg (fun hh => e4 (by simpa using hh)),
                          if_neg (fun hh => e5 (by simpa using hh)),
                          if_neg (fun hh => e6 (by simpa using hh)),
                          if_neg (fun hh => e7 (by simpa using hh)),
                          if_neg ectl]]
                    exact parseStrBody_raw_step f' e1 e2 ectl hrec

/-! ### Object (dict) lemmas -/

def objAppend : JObj → JObj → JObj
  | .nil, b => b
  | .cons k v tl, b => .cons k v (objAppend tl b)

theorem objAppend_nil : ∀ a : JObj, objAppend a .nil = a
  | .nil => rfl
  | .cons k v tl => by
    simp only [objAppend]
    rw [objAppend_nil tl]

theorem objAppend_assoc : ∀ a b c : JObj,
    objAppend (objAppend a b) c = objAppend a (objAppend b c)
  | .nil, _, _ => rfl
  | .cons k v tl, b, c => by
    simp only [objAppend]
    rw [objAppend_assoc tl b c]

theorem keyMem_objAppend (k : List Char) : ∀ a b : JObj,
    keyMem k (objAppend a b) = (keyMem k a || keyMem k b)
  | .nil, b => by simp [objAppend, keyMem]
  | .cons k0 v0 tl, b => by
    simp only [objAppend, keyMem]
    rw [keyMem_objAppend k tl b, Bool.or_assoc]

theorem setKey_fresh : ∀ (acc : JObj) (k : List Char) (v : JValue),
    keyMem k acc = false → setKey acc k v = objAppend acc (.cons k v .nil)
  | .nil, k, v, _ => rfl
  | .cons k0 v0 tl, k, v, h => by
    simp only [keyMem, Bool.or_eq_false_iff] at h
    simp only [setKey, objAppend]
    rw [if_neg (by simp [h.1])]
    rw [setKey_fresh tl k v h.2]

theorem wfO_cons_parts {k : List Char} {v : JValue} {tl : JObj}
    (h : wfO (.cons k v tl) = true) :
    keyMem k tl = false ∧ wfV v = true ∧ wfO tl = true := by
  simp only [wfO, Bool.and_eq_true, Bool.not_eq_true'] at h
  exact ⟨h.1.1, h.1.2, h.2⟩

theorem dedupGo_fresh : ∀ (kvs acc : JObj), wfO kvs = true →
    (∀ k', keyMem k' kvs = true → keyMem k' acc = false) →
    dedupGo acc kvs = objAppend acc kvs
  | .nil, acc, _, _ => by
    simp only [dedupGo]
    rw [objAppend_nil]
  | .cons k v tl, acc, hwf, hdisj => by
    obtain ⟨hkm, hv, hwf'⟩ := wfO_cons_parts hwf
    simp only [dedupGo]
    have hk : keyMem k acc = false := hdisj k (by simp [keyMem])
    rw [setKey_fresh acc k v hk]
    rw [dedupGo_fresh tl (objAppend acc (.cons k v .nil)) hwf' ?_]
    · rw [objAppend_assoc]
      rfl
    · intro k' hk'
      rw [keyMem_objAppend]
      have h1 : keyMem k' acc = false := hdisj k' (by simp [keyMem, hk'])
      have h2 : keyMem k' (JObj.cons k v .nil) = false := by
        simp only [keyMem, Bool.or_eq_false_iff]
        refine ⟨?_, trivial⟩
        by_contra hne
        have : (k == k') = true := by revert hne; cases k == k' <;> simp
        have hkk : k = k' := by simpa using this
        subst hkk
        rw [hk'] at hkm
        cases hkm
      simp [h1, h2]

theorem dedupObj_wfO {kvs : JObj} (h : wfO kvs = true) : dedupObj kvs = kvs := by
  unfold dedupObj
  rw [dedupGo_fresh kvs .nil h (fun k' _ => rfl)]
  rfl

theorem keyMem_setKey (a k : List Char) (v : JValue) : ∀ o : JObj,
    keyMem a (setKey o k v) = (keyMem a o || k == a)
  | .nil => by simp [setKey, keyMem]
  | .cons k0 v0 tl => by
    simp only [setKey]
    by_cases h0 : k0 == k
    · have hk : k0 = k := by simpa using h0
      subst hk
      rw [if_pos h0]
      simp only [keyMem]
      rw [Bool.or_comm (k0 == a) (keyMem a tl)]
      simp [beq_iff_eq]
    · rw [if_neg (by simp_all)]
      simp only [keyMem]
      rw [keyMem_setKey a k v tl, Bool.or_assoc]

theorem wfO_setKey (k : List Char) (v : JValue) (hv : wfV v = true) : ∀ o : JObj,
    wfO o = true → wfO (setKey o k v) = true
  | .nil, _ => by simp [setKey, wfO, keyMem, hv]
  | .cons k0 v0 tl, h => by
    obtain ⟨hkm, hv0, htl⟩ := wfO_cons_parts h
    simp only [setKey]
    by_cases h0 : k0 == k
    · rw [if_pos h0]
      simp [wfO, hkm, hv, htl]
    · rw [if_neg (by simp_all)]
      simp only [wfO, Bool.and_eq_true, Bool.not_eq_true']
      refine ⟨⟨?_, hv0⟩, wfO_setKey k v hv tl htl⟩
      rw [keyMem_setKey]
      simp only [Bool.or_eq_false_iff]
      refine ⟨hkm, ?_⟩
      rw [beq_eq_false_iff_ne]
      exact fun hh => h0 (by subst hh; simp)

theorem lookupObj_setKey_self (k : List Char) (v : JValue) : ∀ o : JObj,
    lookupObj (setKey o k v) k = some v
  | .nil => by simp [setKey, lookupObj]
  | .cons k0 v0 tl => by
    simp only [setKey]
    by_cases h0 : k0 == k
    · rw [if_pos h0]
      simp [lookupObj, h0]
    · rw [if_neg (by simp_all)]
      simp only [lookupObj]
      rw [if_neg (by simp_all)]
      exact lookupObj_setKey_self k v tl

/-! ### Serialized-form head shapes -/

/-- What may follow a serialized value inside a larger serialization:
end of input, a separator comma, or a closing bracket/brace. -/
def Delim : List Char → Prop
  | [] => True
  | c :: _ => c = ',' ∨ c = '\x7d' ∨ c = ']'

theorem Delim_NumDelim {r : List Char} (h : Delim r) : NumDelim r := by
  cases r with
  | nil => trivial
  | cons c r' =>
    rcases h with h | h | h <;> subst h <;>
      exact ⟨by decide, by decide, by decide, by decide⟩

theorem isPrefixOf_append_self : ∀ l r : List Char, l.isPrefixOf (l ++ r) = true
  | [], _ => by simp [List.isPrefixOf]
  | a :: as, r => by
    simp only [List.cons_append, List.isPrefixOf]
    rw [show as.append r = as ++ r from rfl, isPrefixOf_append_self as r]
    simp

theorem isPrefixOf_head_ne {p c : Char} {ps l : List Char} (h : p ≠ c) :
    (p :: ps).isPrefixOf (c :: l) = false := by
  simp only [List.isPrefixOf, Bool.and_eq_false_iff]
  exact Or.inl (beq_eq_false_iff_ne.mpr h)

theorem natDigits_cons (m : Nat) :
    ∃ c l, natDigits m = c :: l ∧ c.isDigit = true := by
  cases hh : natDigits m with
  | nil => exact absurd hh (natDigits_ne_nil m)
  | cons c l =>
    exact ⟨c, l, rfl, natDigits_all_digit m c (by rw [hh]; simp)⟩

theorem intDigits_head (n : Int) :
    ∃ c l, intDigits n = c :: l ∧ isJsonWs c = false ∧ c ≠ ']' ∧ c ≠ '\x7d' := by
  unfold intDigits
  by_cases hn : n < 0
  · rw [if_pos hn]
    exact ⟨'-', natDigits n.natAbs, rfl, by decide, by decide, by decide⟩
  · rw [if_neg hn]
    obtain ⟨c, l, hcl, hcd⟩ := natDigits_cons n.natAbs
    exact ⟨c, l, hcl, isDigit_not_ws hcd,
      digit_ne_of_not_digit hcd (by decide), digit_ne_of_not_digit hcd (by decide)⟩

theorem serVal_head : ∀ v : JValue,
    ∃ c r, serVal v = c :: r ∧ isJsonWs c = false ∧ c ≠ ']' ∧ c ≠ '\x7d' := by
  intro v
  cases v with
  | null => exact ⟨'n', "ull".toList, by decide, by decide, by decide, by decide⟩
  | bool b =>
    cases b with
    | true => exact ⟨'t', "rue".toList, by decide, by decide, by decide, by decide⟩
    | false => exact ⟨'f', "alse".toList, by decide, by decide, by decide, by decide⟩
  | jint n =>
    obtain ⟨c, l, hcl, hw, h1, h2⟩ := intDigits_head n
    exact ⟨c, l, by simp only [serVal]; exact hcl, hw, h1, h2⟩
  | jfloat m e =>
    obtain ⟨c, l, hcl, hw, h1, h2⟩ := intDigits_head m
    refine ⟨c, l ++ 'e' :: intDigits e, ?_, hw, h1, h2⟩
    simp only [serVal]
    rw [hcl]
    rfl
  | nan => exact ⟨'N', "aN".toList, by decide, by decide, by decide, by decide⟩
  | inf neg =>
    cases neg with
    | true => exact ⟨'-', "Infinity".toList, by decide, by decide, by decide, by decide⟩
    | false => exact ⟨'I', "nfinity".toList, by decide, by decide, by decide, by decide⟩
  | str cs =>
    exact ⟨'"', escapeList cs ++ ['"'], by simp only [serVal]; rfl, by decide, by decide,
      by decide⟩
  | arr xs =>
    cases xs with
    | nil => exact ⟨'[', [']'], by decide, by decide, by decide, by decide⟩
    | cons hd tl =>
      exact ⟨'[', serElems (.cons hd tl) ++ [']'], by simp only [serVal], by decide,
        by decide, by decide⟩
  | obj kvs =>
    cases kvs with
    | nil => exact ⟨'\x7b', ['\x7d'], by decide, by decide, by decide, by decide⟩
    | cons k v tl =>
      exact ⟨'\x7b', serMembers (.cons k v tl) ++ ['\x7d'], by simp only [serVal],
        by decide, by decide, by decide⟩

theorem serElems_head (A : List Char) : ∀ xs : JArr, xs ≠ .nil →
    ∃ c r, serElems xs ++ A = c :: r ∧ isJsonWs c = false ∧ c ≠ ']' ∧ c ≠ '\x7d' := by
  intro xs hne
  cases xs with
  | nil => exact absurd rfl hne
  | cons v tl =>
    obtain ⟨c, r, hc, hw, h1, h2⟩ := serVal_head v
    cases tl with
    | nil =>
      refine ⟨c, r ++ A, ?_, hw, h1, h2⟩
      simp only [serElems]
      rw [hc]
      rfl
    | cons v2 tl2 =>
      refine ⟨c, r ++ ',' :: ' ' :: serElems (.cons v2 tl2) ++ A, ?_, hw, h1, h2⟩
      simp only [serElems]
      rw [hc]
      simp [List.cons_append, List.append_assoc]

theorem one_le_escapeChar_length (c : Char) : 1 ≤ (escapeChar c).length := by
  unfold escapeChar
  split_ifs <;> simp

theorem length_le_escapeList : ∀ cs : List Char, cs.length ≤ (escapeList cs).length
  | [] => by simp [escapeList]
  | c :: cs => by
    simp only [escapeList, List.length_append, List.length_cons]
    have h1 := one_le_escapeChar_length c
    have h2 := length_le_escapeList cs
    omega

/-! ### parseVal entry lemmas -/

theorem parseVal_digit_entry (f' : Nat) {c : Char} {r : List Char} (hc : c.isDigit = true) :
    parseVal (f' + 1) (c :: r) = parseNum (c :: r) := by
  unfold parseVal
  split
  case h_1 heq => injection heq with h1 _; exact absurd (h1 ▸ hc) (by decide)
  case h_2 heq => injection heq with h1 _; exact absurd (h1 ▸ hc) (by decide)
  case h_3 heq => injection heq with h1 _; exact absurd (h1 ▸ hc) (by decide)
  case h_4 heq => injection heq with h1 _; exact absurd (h1 ▸ hc) (by decide)
  case h_5 heq => injection heq with h1 _; exact absurd (h1 ▸ hc) (by decide)
  case h_6 heq => injection heq with h1 _; exact absurd (h1 ▸ hc) (by decide)
  case h_7 heq => injection heq with h1 _; exact absurd (h1 ▸ hc) (by decide)
  case h_8 heq => injection heq with h1 _; exact absurd (h1 ▸ hc) (by decide)
  case h_9 heq => injection heq with h1 _; exact absurd (h1 ▸ hc) (by decide)
  case h_10 hno heq =>
    injection heq with h1 h2
    rw [← h1, ← h2, if_pos hc]
  case h_11 heq => cases heq

theorem parseVal_dash_entry (f' : Nat) {r : List Char}
    (hnI : (['I', 'n', 'f', 'i', 'n', 'i', 't', 'y'].isPrefixOf r) = false) :
    parseVal (f' + 1) ('-' :: r) = parseNum ('-' :: r) := by
  unfold parseVal
  split
  case h_1 heq => injection heq with h1 _; exact absurd h1 (by decide)
  case h_2 heq => injection heq with h1 _; exact absurd h1 (by decide)
  case h_3 heq => injection heq with h1 _; exact absurd h1 (by decide)
  case h_4 heq => injection heq with h1 _; exact absurd h1 (by decide)
  case h_5 heq => injection heq with h1 _; exact absurd h1 (by decide)
  case h_6 heq => injection heq with h1 _; exact absurd h1 (by decide)
  case h_7 heq => injection heq with h1 _; exact absurd h1 (by decide)
  case h_8 heq => injection heq with h1 _; exact absurd h1 (by decide)
  case h_9 heq =>
    injection heq with _ h2
    rw [← h2]
    simp [hnI]
  case h_10 hno heq =>
    injection heq with h1 _
    exact (hno h1.symm).elim
  case h_11 heq => cases heq

/-! ### Sign and number-value helpers -/

theorem applySign_neg {n : Int} (hn : n < 0) : applySign true n.natAbs = n := by
  simp only [applySign, if_true]
  omega

theorem applySign_nonneg {n : Int} (hn : ¬ n < 0) : applySign false n.natAbs = n := by
  simp only [applySign, Bool.false_eq_true, if_false]
  omega

theorem parseVal_intDigits (f' : Nat) (n : Int) {after : List Char} (hA : NumDelim after) :
    parseVal (f' + 1) (intDigits n ++ after) = some (.jint n, after) := by
  by_cases hn : n < 0
  · have hi : intDigits n = '-' :: natDigits n.natAbs := by unfold intDigits; rw [if_pos hn]
    obtain ⟨c, l, hcl, hcd⟩ := natDigits_cons n.natAbs
    rw [hi, hcl]
    show parseVal (f' + 1) ('-' :: (c :: (l ++ after))) = _
    rw [parseVal_dash_entry f'
      (isPrefixOf_head_ne (Ne.symm (digit_ne_of_not_digit hcd (by decide))))]
    have h2 := parseNum_run true n.natAbs (NumDelim_headNotDigit hA)
    rw [show ((if (true : Bool) then ['-'] else ([] : List Char)) ++
        (natDigits n.natAbs ++ after)) = '-' :: (c :: (l ++ after)) from by rw [hcl]; rfl] at h2
    rw [h2, parseNumTail_int true n.natAbs hA, applySign_neg hn]
  · have hi : intDigits n = natDigits n.natAbs := by unfold intDigits; rw [if_neg hn]
    obtain ⟨c, l, hcl, hcd⟩ := natDigits_cons n.natAbs
    rw [hi, hcl]
    show parseVal (f' + 1) (c :: (l ++ after)) = _
    rw [parseVal_digit_entry f' hcd]
    have h2 := parseNum_run false n.natAbs (NumDelim_headNotDigit hA)
    rw [show ((if (false : Bool) then ['-'] else ([] : List Char)) ++
        (natDigits n.natAbs ++ after)) = c :: (l ++ after) from by rw [hcl]; rfl] at h2
    rw [h2, parseNumTail_int false n.natAbs hA, applySign_nonneg hn]

theorem parseVal_floatSer (f' : Nat) (m e : Int) {after : List Char} (hA : NumDelim after) :
    parseVal (f' + 1) ((intDigits m ++ 'e' :: intDigits e) ++ after) =
      some (.jfloat m e, after) := by
  have hB : headNotDigit ('e' :: (intDigits e ++ after)) := by
    show ('e'.isDigit = false)
    decide
  rw [List.append_assoc]
  by_cases hm : m < 0
  · have hi : intDigits m = '-' :: natDigits m.natAbs := by unfold intDigits; rw [if_pos hm]
    obtain ⟨c, l, hcl, hcd⟩ := natDigits_cons m.natAbs
    rw [hi, hcl]
    show parseVal (f' + 1) ('-' :: (c :: (l ++ ('e' :: (intDigits e ++ after))))) = _
    rw [parseVal_dash_entry f'
      (isPrefixOf_head_ne (Ne.symm (digit_ne_of_not_digit hcd (by decide))))]
    have h2 := parseNum_run true m.natAbs hB
    rw [show ((if (true : Bool) then ['-'] else ([] : List Char)) ++
        (natDigits m.natAbs ++ ('e' :: (intDigits e ++ after)))) =
        '-' :: (c :: (l ++ ('e' :: (intDigits e ++ after)))) from by rw [hcl]; rfl] at h2
    rw [h2, parseNumTail_float true m.natAbs e (NumDelim_headNotDigit hA), applySign_neg hm]
  · have hi : intDigits m = natDigits m.natAbs := by unfold intDigits; rw [if_neg hm]
    obtain ⟨c, l, hcl, hcd⟩ := natDigits_cons m.natAbs
    rw [hi, hcl]
    show parseVal (f' + 1) (c :: (l ++ ('e' :: (intDigits e ++ after)))) = _
    rw [parseVal_digit_entry f' hcd]
    have h2 := parseNum_run false m.natAbs hB
    rw [show ((if (false : Bool) then ['-'] else ([] : List Char)) ++
        (natDigits m.natAbs ++ ('e' :: (intDigits e ++ after)))) =
        c :: (l ++ ('e' :: (intDigits e ++ after))) from by rw [hcl]; rfl] at h2
    rw [h2, parseNumTail_float false m.natAbs e (NumDelim_headNotDigit hA), applySign_nonneg hm]

/-! ### Well-formedness of parser output -/

/-- All values of a (possibly duplicate-keyed) pair list are well-formed. -/
def wfVals : JObj → Bool
  | .nil => true
  | .cons _ v tl => wfV v && wfVals tl

theorem wfO_dedupGo : ∀ (kvs acc : JObj), wfO acc = true → wfVals kvs = true →
    wfO (dedupGo acc kvs) = true
  | .nil, _, ha, _ => ha
  | .cons k v tl, acc, ha, hv => by
    simp only [wfVals, Bool.and_eq_true] at hv
    simp only [dedupGo]
    exact wfO_dedupGo tl _ (wfO_setKey k v hv.1 acc ha) hv.2

theorem wfO_dedupObj {kvs : JObj} (h : wfVals kvs = true) : wfO (dedupObj kvs) = true :=
  wfO_dedupGo kvs .nil rfl h

theorem parseNumTail_wf {neg : Bool} {ival : Nat} {r : List Char} {v : JValue}
    {rest : List Char} (h : parseNumTail neg ival r = some (v, rest)) : wfV v = true := by
  unfold parseNumTail at h
  split at h <;> split at h <;>
    (simp only [Option.some.injEq, Prod.mk.injEq] at h; obtain ⟨h1, _⟩ := h; rw [← h1]; rfl)

theorem parseNumAfterSign_wf {neg : Bool} {s : List Char} {v : JValue} {rest : List Char}
    (h : parseNumAfterSign neg s = some (v, rest)) : wfV v = true := by
  unfold parseNumAfterSign at h
  split at h
  · exact parseNumTail_wf h
  · split at h
    · exact parseNumTail_wf h
    · exact Option.noConfusion h
  · exact Option.noConfusion h

theorem parseNum_wf {s : List Char} {v : JValue} {rest : List Char}
    (h : parseNum s = some (v, rest)) : wfV v = true := by
  unfold parseNum at h
  split at h
  · exact parseNumAfterSign_wf h
  · exact parseNumAfterSign_wf h

theorem one_le_jsizeV : ∀ v : JValue, 1 ≤ jsizeV v := by
  intro v
  cases v <;> (simp only [jsizeV]; omega)

theorem one_le_jsizeA : ∀ xs : JArr, 1 ≤ jsizeA xs := by
  intro xs
  cases xs <;> (simp only [jsizeA]; omega)

theorem one_le_jsizeO : ∀ kvs : JObj, 1 ≤ jsizeO kvs := by
  intro kvs
  cases kvs <;> (simp only [jsizeO]; omega)

theorem serMembers_head (A : List Char) : ∀ kvs : JObj, kvs ≠ .nil →
    ∃ r, serMembers kvs ++ A = '"' :: r := by
  intro kvs hne
  cases kvs with
  | nil => exact absurd rfl hne
  | cons k v tl =>
    cases tl with
    | nil =>
      refine ⟨escapeList k ++ '"' :: (':' :: ' ' :: (serVal v ++ A)), ?_⟩
      simp [serMembers, serStr, List.cons_append, List.append_assoc]
    | cons k2 v2 tl2 =>
      refine ⟨escapeList k ++ '"' ::
        (':' :: ' ' :: (serVal v ++ ',' :: ' ' :: (serMembers (.cons k2 v2 tl2) ++ A))), ?_⟩
      simp [serMembers, serStr, List.cons_append, List.append_assoc]

/-! ### Size of a value versus the length of its serialization -/

mutual
theorem jsizeV_le_ser : ∀ v : JValue, jsizeV v + 1 ≤ 2 * (serVal v).length
  | .null => by decide
  | .bool true => by decide
  | .bool false => by decide
  | .nan => by decide
  | .inf true => by decide
  | .inf false => by decide
  | .jint n => by
    obtain ⟨c, l, hcl, _, _, _⟩ := intDigits_head n
    simp only [jsizeV, serVal, hcl, List.length_cons]
    omega
  | .jfloat m e => by
    obtain ⟨c, l, hcl, _, _, _⟩ := intDigits_head m
    simp only [jsizeV, serVal, hcl, List.cons_append, List.length_cons, List.length_append]
    omega
  | .str cs => by
    simp only [jsizeV, serVal, serStr, List.length_cons, List.length_append]
    omega
  | .arr .nil => by decide
  | .arr (.cons hd tl) => by
    have h := jsizeA_le_ser (.cons hd tl)
    simp only [jsizeV, serVal, List.length_cons, List.length_append, List.length_singleton]
    omega
  | .obj .nil => by decide
  | .obj (.cons k v tl) => by
    have h := jsizeO_le_ser (.cons k v tl)
    simp only [jsizeV, serVal, List.length_cons, List.length_append, List.length_singleton]
    omega
theorem jsizeA_le_ser : ∀ xs : JArr, jsizeA xs ≤ 2 * (serElems xs).length + 1
  | .nil => by decide
  | .cons v .nil => by
    have h := jsizeV_le_ser v
    simp only [jsizeA, serElems]
    omega
  | .cons v (.cons v2 tl) => by
    have h1 := jsizeV_le_ser v
    have h2 := jsizeA_le_ser (.cons v2 tl)
    simp only [jsizeA, serElems, List.length_append, List.length_cons] at h2 ⊢
    omega
theorem jsizeO_le_ser : ∀ kvs : JObj, jsizeO kvs ≤ 2 * (serMembers kvs).length + 1
  | .nil => by decide
  | .cons k v .nil => by
    have h := jsizeV_le_ser v
    simp only [jsizeO, serMembers, serStr, List.length_append, List.length_cons]
    omega
  | .cons k v (.cons k2 v2 tl) => by
    have h1 := jsizeV_le_ser v
    have h2 := jsizeO_le_ser (.cons k2 v2 tl)
    simp only [jsizeO, serMembers, serStr, List.length_append, List.length_cons] at h2 ⊢
    omega
end

theorem parse_wf_fuel : ∀ f : Nat,
    (∀ s v r, parseVal f s = some (v, r) → wfV v = true) ∧
    (∀ s xs r, parseElems f s = some (xs, r) → wfA xs = true) ∧
    (∀ s kvs r, parseMembers f s = some (kvs, r) → wfVals kvs = true) := by
  intro f
  induction f with
  | zero =>
    refine ⟨?_, ?_, ?_⟩ <;> (intro s a r h; exact Option.noConfusion h)
  | succ f ih =>
    obtain ⟨ihv, ihe, ihm⟩ := ih
    refine ⟨?_, ?_, ?_⟩
    · intro s v r h
      unfold parseVal at h
      split at h
      · -- object
        split at h
        · simp only [Option.some.injEq, Prod.mk.injEq] at h
          rw [← h.1]
          rfl
        · rcases Option.map_eq_some'.mp h with ⟨⟨kvs, r2⟩, hp, he⟩
          injection he with h1 _
          rw [← h1]
          simp only [wfV]
          exact wfO_dedupObj (ihm _ _ _ hp)
      · -- array
        split at h
        · simp only [Option.some.injEq, Prod.mk.injEq] at h
          rw [← h.1]
          rfl
        · rcases Option.map_eq_some'.mp h with ⟨⟨xs, r2⟩, hp, he⟩
          injection he with h1 _
          rw [← h1]
          simp only [wfV]
          exact ihe _ _ _ hp
      · -- string
        rcases Option.map_eq_some'.mp h with ⟨⟨k, r2⟩, hp, he⟩
        injection he with h1 _
        rw [← h1]
        rfl
      · -- true
        split at h
        · simp only [Option.some.injEq, Prod.mk.injEq] at h
          rw [← h.1]
          rfl
        · exact Option.noConfusion h
      · -- false
        split at h
        · simp only [Option.some.injEq, Prod.mk.injEq] at h
          rw [← h.1]
          rfl
        · exact Option.noConfusion h
      · -- null
        split at h
        · simp only [Option.some.injEq, Prod.mk.injEq] at h
          rw [← h.1]
          rfl
        · exact Option.noConfusion h
      · -- NaN
        split at h
        · simp only [Option.some.injEq, Prod.mk.injEq] at h
          rw [← h.1]
          rfl
        · exact Option.noConfusion h
      · -- Infinity
        split at h
        · simp only [Option.some.injEq, Prod.mk.injEq] at h
          rw [← h.1]
          rfl
        · exact Option.noConfusion h
      · -- minus
        split at h
        · simp only [Option.some.injEq, Prod.mk.injEq] at h
          rw [← h.1]
          rfl
        · exact parseNum_wf h
      · -- digit
        split at h
        · exact parseNum_wf h
        · exact Option.noConfusion h
      · exact Option.noConfusion h
    · intro s xs r h
      unfold parseElems at h
      split at h
      · next v' r' heq =>
        split at h
        · rcases Option.map_eq_some'.mp h with ⟨⟨xs', r2⟩, hp, he⟩
          injection he with h1 _
          rw [← h1]
          simp only [wfA, Bool.and_eq_true]
          exact ⟨ihv _ _ _ heq, ihe _ _ _ hp⟩
        · simp only [Option.some.injEq, Prod.mk.injEq] at h
          rw [← h.1]
          simp only [wfA, Bool.and_eq_true]
          exact ⟨ihv _ _ _ heq, trivial⟩
        · exact Option.noConfusion h
      · exact Option.noConfusion h
    · intro s kvs r h
      unfold parseMembers at h
      split at h
      · split at h
        · split at h
          · split at h
            · next v' r3 heq =>
              split at h
              · rcases Option.map_eq_some'.mp h with ⟨⟨kvs', r4⟩, hp, he⟩
                injection he with h1 _
                rw [← h1]
                simp only [wfVals, Bool.and_eq_true]
                exact ⟨ihv _ _ _ heq, ihm _ _ _ hp⟩
              · simp only [Option.some.injEq, Prod.mk.injEq] at h
                rw [← h.1]
                simp only [wfVals, Bool.and_eq_true]
                exact ⟨ihv _ _ _ heq, trivial⟩
              · exact Option.noConfusion h
            · exact Option.noConfusion h
          · exact Option.noConfusion h
        · exact Option.noConfusion h
      · exact Option.noConfusion h

theorem loads_wf {s : List Char} {v : JValue} (h : loads s = some v) : wfV v = true := by
  unfold loads at h
  split at h
  · next v' r heq =>
    split at h
    · injection h with h1
      rw [← h1]
      exact (parse_wf_fuel _).1 _ _ _ heq
    · exact Option.noConfusion h
  · exact Option.noConfusion h

theorem rt_fuel : ∀ f : Nat,
    (∀ v rest, wfV v = true → Delim rest → jsizeV v ≤ f →
        parseVal f (serVal v ++ rest) = some (v, rest)) ∧
    (∀ xs rest, xs ≠ JArr.nil → wfA xs = true → Delim rest → jsizeA xs ≤ f →
        parseElems f (serElems xs ++ (']' :: rest)) = some (xs, rest)) ∧
    (∀ kvs rest, kvs ≠ JObj.nil → wfO kvs = true → Delim rest → jsizeO kvs ≤ f →
        parseMembers f (serMembers kvs ++ ('\x7d' :: rest)) = some (kvs, rest)) := by
  intro f
  induction f with
  | zero =>
    refine ⟨?_, ?_, ?_⟩
    · intro v rest _ _ hs
      exact absurd hs (by have := one_le_jsizeV v; omega)
    · intro xs rest _ _ _ hs
      exact absurd hs (by have := one_le_jsizeA xs; omega)
    · intro kvs rest _ _ _ hs
      exact absurd hs (by have := one_le_jsizeO kvs; omega)
  | succ f ih =>
    obtain ⟨ihv, ihe, ihm⟩ := ih
    refine ⟨?_, ?_, ?_⟩
    · intro v rest hwf hD hs
      cases v with
      | null =>
        show parseVal (f + 1) (['n', 'u', 'l', 'l'] ++ rest) = some (.null, rest)
        simp [parseVal, List.isPrefixOf]
      | bool b =>
        cases b with
        | true =>
          show parseVal (f + 1) (['t', 'r', 'u', 'e'] ++ rest) = some (.bool true, rest)
          simp [parseVal, List.isPrefixOf]
        | false =>
          show parseVal (f + 1) (['f', 'a', 'l', 's', 'e'] ++ rest) = some (.bool false, rest)
          simp [parseVal, List.isPrefixOf]
      | jint n =>
        show parseVal (f + 1) (intDigits n ++ rest) = some (.jint n, rest)
        exact parseVal_intDigits f n (Delim_NumDelim hD)
      | jfloat m e =>
        show parseVal (f + 1) ((intDigits m ++ 'e' :: intDigits e) ++ rest) =
          some (.jfloat m e, rest)
        exact parseVal_floatSer f m e (Delim_NumDelim hD)
      | nan =>
        show parseVal (f + 1) (['N', 'a', 'N'] ++ rest) = some (.nan, rest)
        simp [parseVal, List.isPrefixOf]
      | inf neg =>
        cases neg with
        | true =>
          show parseVal (f + 1)
            (['-', 'I', 'n', 'f', 'i', 'n', 'i', 't', 'y'] ++ rest) = some (.inf true, rest)
          simp [parseVal, List.isPrefixOf]
        | false =>
          show parseVal (f + 1)
            (['I', 'n', 'f', 'i', 'n', 'i', 't', 'y'] ++ rest) = some (.inf false, rest)
          simp [parseVal, List.isPrefixOf]
      | str cs =>
        have hx : serVal (.str cs) ++ rest = '"' :: (escapeList cs ++ '"' :: rest) := by
          simp [serVal, serStr, List.cons_append, List.append_assoc]
        rw [hx]
        simp only [parseVal]
        rw [parseStrBody_ser cs _
          (by simp only [List.length_append, List.length_cons]
              have := length_le_escapeList cs
              omega)]
        rfl
      | arr xs =>
        cases xs with
        | nil =>
          show parseVal (f + 1) ('[' :: ']' :: rest) = some (.arr .nil, rest)
          simp only [parseVal]
          rw [skipWs_cons_notWs (by decide)]
          split
          · next heq =>
            injection heq with _ h2
            rw [h2]
          · next hno => exact (hno rest rfl).elim
        | cons hd tl =>
          simp only [wfV] at hwf
          simp only [jsizeV] at hs
          have hser : serVal (.arr (.cons hd tl)) ++ rest
              = '[' :: (serElems (.cons hd tl) ++ (']' :: rest)) := by
            simp [serVal, List.cons_append, List.append_assoc]
          rw [hser]
          simp only [parseVal]
          obtain ⟨c, r, hcr, hw, hbr, _⟩ :=
            serElems_head (']' :: rest) (.cons hd tl) (by intro hh; cases hh)
          rw [hcr, skipWs_cons_notWs hw]
          split
          · next heq =>
            injection heq with h1 _
            exact absurd h1 hbr
          · next =>
            rw [← hcr,
              ihe (.cons hd tl) rest (by intro hh; cases hh) hwf hD (by omega)]
            rfl
      | obj kvs =>
        cases kvs with
        | nil =>
          show parseVal (f + 1) ('\x7b' :: '\x7d' :: rest) = some (.obj .nil, rest)
          simp only [parseVal]
          rw [skipWs_cons_notWs (by decide)]
          split
          · next heq =>
            injection heq with _ h2
            rw [h2]
          · next hno => exact (hno rest rfl).elim
        | cons k v tl =>
          simp only [wfV] at hwf
          simp only [jsizeV] at hs
          have hser : serVal (.obj (.cons k v tl)) ++ rest
              = '\x7b' :: (serMembers (.cons k v tl) ++ ('\x7d' :: rest)) := by
            simp [serVal, List.cons_append, List.append_assoc]
          rw [hser]
          simp only [parseVal]
          obtain ⟨r, hcr⟩ :=
            serMembers_head ('\x7d' :: rest) (.cons k v tl) (by intro hh; cases hh)
          rw [hcr, skipWs_cons_notWs (by decide)]
          split
          · next heq =>
            injection heq with h1 _
            exact absurd h1 (by decide)
          · next =>
            rw [← hcr,
              ihm (.cons k v tl) rest (by intro hh; cases hh) hwf hD (by omega)]
            show some (JValue.obj (dedupObj (.cons k v tl)), rest) = _
            rw [dedupObj_wfO hwf]
    · intro xs rest hne hwf hd hs
      cases xs with
      | nil => exact absurd rfl hne
      | cons v tl =>
        simp only [wfA, Bool.and_eq_true] at hwf
        obtain ⟨hv, htl⟩ := hwf
        simp only [jsizeA] at hs
        cases tl with
        | nil =>
          show parseElems (f + 1) (serVal v ++ (']' :: rest)) = some (.cons v .nil, rest)
          simp only [parseElems]
          rw [ihv v (']' :: rest) hv (Or.inr (Or.inr rfl)) (by omega)]
          dsimp only
          rw [skipWs_cons_notWs (by decide)]
          split
          · next heq =>
            injection heq with h1 _
            exact absurd h1 (by decide)
          · next heq =>
            injection heq with _ h2
            rw [h2]
          · next hno1 hno2 => exact (hno2 rest rfl).elim
        | cons v2 tl2 =>
          have hser : serElems (.cons v (.cons v2 tl2)) ++ (']' :: rest)
              = serVal v ++ (',' :: ' ' :: (serElems (.cons v2 tl2) ++ (']' :: rest))) := by
            simp [serElems, List.cons_append, List.append_assoc]
          rw [hser]
          simp only [parseElems]
          rw [ihv v (',' :: ' ' :: (serElems (.cons v2 tl2) ++ (']' :: rest))) hv
            (Or.inl rfl) (by omega)]
          dsimp only
          rw [skipWs_cons_notWs (by decide)]
          split
          · next heq =>
            injection heq with _ h2
            rw [← h2, skipWs_cons_ws (by decide)]
            obtain ⟨c, r, hcr, hw, _, _⟩ :=
              serElems_head (']' :: rest) (.cons v2 tl2) (by intro hh; cases hh)
            rw [hcr, skipWs_cons_notWs hw, ← hcr]
            rw [ihe (.cons v2 tl2) rest (by intro hh; cases hh) htl hd (by omega)]
            rfl
          · next heq =>
            injection heq with h1 _
            exact absurd h1 (by decide)
          · next hno1 hno2 => exact (hno1 _ rfl).elim
    · intro kvs rest hne hwf hd hs
      cases kvs with
      | nil => exact absurd rfl hne
      | cons k v tl =>
        obtain ⟨hkm, hv, htl⟩ := wfO_cons_parts hwf
        simp only [jsizeO] at hs
        cases tl with
        | nil =>
          have hser : serMembers (.cons k v .nil) ++ ('\x7d' :: rest)
              = '"' :: (escapeList k ++ '"' ::
                  (':' :: ' ' :: (serVal v ++ ('\x7d' :: rest)))) := by
            simp [serMembers, serStr, List.cons_append, List.append_assoc]
          rw [hser]
          simp only [parseMembers]
          rw [parseStrBody_ser k _
            (by simp only [List.length_append, List.length_cons]
                have := length_le_escapeList k
                omega)]
          dsimp only
          rw [skipWs_cons_notWs (by decide)]
          split
          · next heq =>
            injection heq with _ h2
            rw [← h2, skipWs_cons_ws (by decide)]
            obtain ⟨c, r, hcr, hw, _, _⟩ := serVal_head v
            have hcr2 : serVal v ++ ('\x7d' :: rest) = c :: (r ++ ('\x7d' :: rest)) := by
              rw [hcr]
              rfl
            rw [hcr2, skipWs_cons_notWs hw, ← hcr2]
            rw [ihv v ('\x7d' :: rest) hv (Or.inr (Or.inl rfl)) (by omega)]
            dsimp only
            rw [skipWs_cons_notWs (by decide)]
            split
            · next heq2 =>
              injection heq2 with h1 _
              exact absurd h1 (by decide)
            · next heq2 =>
              injection heq2 with _ h2b
              rw [h2b]
            · next hno1 hno2 => exact (hno2 rest rfl).elim
          · next hno => exact (hno _ rfl).elim
        | cons k2 v2 tl2 =>
          have hser : serMembers (.cons k v (.cons k2 v2 tl2)) ++ ('\x7d' :: rest)
              = '"' :: (escapeList k ++ '"' :: (':' :: ' ' :: (serVal v ++
                  (',' :: ' ' :: (serMembers (.cons k2 v2 tl2) ++ ('\x7d' :: rest)))))) := by
            simp [serMembers, serStr, List.cons_append, List.append_assoc]
          rw [hser]
          simp only [parseMembers]
          rw [parseStrBody_ser k _
            (by simp only [List.length_append, List.length_cons]
                have := length_le_escapeList k
                omega)]
          dsimp only
          rw [skipWs_cons_notWs (by decide)]
          split
          · next heq =>
            injection heq with _ h2
            rw [← h2, skipWs_cons_ws (by decide)]
            obtain ⟨c, r, hcr, hw, _, _⟩ := serVal_head v
            have hcr2 : serVal v ++
                (',' :: ' ' :: (serMembers (.cons k2 v2 tl2) ++ ('\x7d' :: rest)))
                = c :: (r ++ (',' :: ' ' :: (serMembers (.cons k2 v2 tl2) ++
                    ('\x7d' :: rest)))) := by
              rw [hcr]
              rfl
            rw [hcr2, skipWs_cons_notWs hw, ← hcr2]
            rw [ihv v (',' :: ' ' :: (serMembers (.cons k2 v2 tl2) ++ ('\x7d' :: rest)))
              hv (Or.inl rfl) (by omega)]
            dsimp only
            rw [skipWs_cons_notWs (by decide)]
            split
            · next heq2 =>
              injection heq2 with _ h2b
              rw [← h2b, skipWs_cons_ws (by decide)]
              obtain ⟨r2, hcr3⟩ :=
                serMembers_head ('\x7d' :: rest) (.cons k2 v2 tl2) (by intro hh; cases hh)
              rw [hcr3, skipWs_cons_notWs (by decide), ← hcr3]
              rw [ihm (.cons k2 v2 tl2) rest (by intro hh; cases hh) htl hd (by omega)]
              rfl
            · next heq2 =>
              injection heq2 with h1 _
              exact absurd h1 (by decide)
            · next hno1 hno2 => exact (hno1 _ rfl).elim
          · next hno => exact (hno _ rfl).elim

theorem loads_dumps {v : JValue} (h : wfV v = true) : loads (dumps v) = some v := by
  obtain ⟨c, r, hcr, hw, _, _⟩ := serVal_head v
  have hrt := (rt_fuel (2 * (serVal v).length + 2)).1 v [] h trivial
    (by have := jsizeV_le_ser v; omega)
  rw [List.append_nil] at hrt
  unfold loads dumps
  rw [hcr, skipWs_cons_notWs hw, ← hcr, hrt]
  rfl

/-! ### Idempotence of the coercion loop -/

theorem coerceKeys_wfO : ∀ (ks : List (List Char)) (kvs kvs' : JObj),
    wfO kvs = true → coerceKeys ks kvs = .ok kvs' → wfO kvs' = true
  | [], kvs, kvs', hw, h => by
    injection h with h1
    rw [← h1]
    exact hw
  | k :: ks, kvs, kvs', hw, h => by
    simp only [coerceKeys] at h
    split at h
    · exact Except.noConfusion h
    · split at h
      · exact Except.noConfusion h
      · next n hn =>
        exact coerceKeys_wfO ks _ kvs' (wfO_setKey k (.jint n) rfl kvs hw) h

theorem coerceKeys_pres_post : ∀ (ks : List (List Char)) (kvs kvs' : JObj),
    coerceKeys ks kvs = .ok kvs' →
    (∀ k0, (∃ n, lookupObj kvs k0 = some (.jint n)) →
        ∃ n, lookupObj kvs' k0 = some (.jint n)) ∧
    (∀ k ∈ ks, ∃ n, lookupObj kvs' k = some (.jint n))
  | [], kvs, kvs', h => by
    injection h with h1
    subst h1
    exact ⟨fun k0 hk => hk, by simp⟩
  | k :: ks, kvs, kvs', h => by
    simp only [coerceKeys] at h
    split at h
    · exact Except.noConfusion h
    · next v heq =>
      split at h
      · exact Except.noConfusion h
      · next n hn =>
        obtain ⟨pres, post⟩ := coerceKeys_pres_post ks (setKey kvs k (.jint n)) kvs' h
        constructor
        · intro k0 hk0
          apply pres
          by_cases hkk : k = k0
          · subst hkk
            exact ⟨n, lookupObj_setKey_self k (.jint n) kvs⟩
          · rw [lookupObj_setKey_ne kvs k k0 (.jint n) hkk]
            exact hk0
        · intro k1 hk1
          simp only [List.mem_cons] at hk1
          rcases hk1 with hk1 | hk1
          · subst hk1
            exact pres k1 ⟨n, lookupObj_setKey_self k1 (.jint n) kvs⟩
          · exact post k1 hk1

theorem coerceKeys_fix : ∀ (ks : List (List Char)) (kvs : JObj),
    (∀ k ∈ ks, ∃ n, lookupObj kvs k = some (.jint n)) →
    coerceKeys ks kvs = .ok kvs
  | [], _, _ => rfl
  | k :: ks, kvs, h => by
    obtain ⟨n, hn⟩ := h k (by simp)
    simp only [coerceKeys]
    rw [hn]
    show coerceKeys ks (setKey kvs k (.jint n)) = .ok kvs
    rw [setKey_lookup_self kvs k (.jint n) hn]
    exact coerceKeys_fix ks kvs (fun k1 hk1 => h k1 (by simp [hk1]))

/-! ### The regex wrap-around on a serialized object -/

theorem pySlice_full (s : List Char) : pySlice s 0 s.length = s := by
  unfold pySlice
  simp

theorem braceExtract_wrap (mid : List Char) :
    braceExtract ('\x7b' :: (mid ++ ['\x7d'])) = some ('\x7b' :: (mid ++ ['\x7d'])) := by
  have hf : pyFind ('\x7b' :: (mid ++ ['\x7d'])) '\x7b' = some 0 := by
    unfold pyFind
    rw [List.findIdx?_cons]
    simp
  have hrev : ('\x7b' :: (mid ++ ['\x7d'])).reverse = '\x7d' :: (mid.reverse ++ ['\x7b']) := by
    simp [List.reverse_cons, List.reverse_append]
  have hlen : ('\x7b' :: (mid ++ ['\x7d'])).length = mid.length + 2 := by
    simp [List.length_append]
  have hr : pyRfind ('\x7b' :: (mid ++ ['\x7d'])) '\x7d' = some (mid.length + 1) := by
    unfold pyRfind
    rw [hrev, List.findIdx?_cons]
    have harith : mid.length + 2 - 1 - 0 = mid.length + 1 := by omega
    simp [hlen, harith]
  unfold braceExtract
  rw [hf, hr]
  show (if 0 < mid.length + 1 then
      some (pySlice ('\x7b' :: (mid ++ ['\x7d'])) 0 (mid.length + 1 + 1)) else none) = _
  rw [if_pos (by omega)]
  have hsl := pySlice_full ('\x7b' :: (mid ++ ['\x7d']))
  rw [hlen] at hsl
  rw [show mid.length + 1 + 1 = mid.length + 2 from rfl, hsl]

theorem modifyCvJson_idem {s : List Char} {v : JValue}
    (h : modifyCvJsonRecover s = .ok v) : modifyCvJsonRecover (dumps v) = .ok v := by
  have hwf : wfV v = true := by
    unfold modifyCvJsonRecover at h
    split at h
    · next v0 heq =>
      injection h with h1
      exact loads_wf (h1 ▸ heq)
    · split at h
      · next v0 heq =>
        injection h with h1
        exact loads_wf (h1 ▸ heq)
      · exact Except.noConfusion h
  unfold modifyCvJsonRecover
  rw [loads_dumps hwf]

theorem matchCv_idem {s : List Char} {kvs : JObj}
    (h : matchCvRecover s = .ok kvs) : matchCvRecover (dumps (.obj kvs)) = .ok kvs := by
  unfold matchCvRecover at h
  split at h
  · exact Except.noConfusion h
  · next sub hext =>
    split at h
    · exact Except.noConfusion h
    · next kvs0 hload =>
      split at h
      · next kvs1 hco =>
        injection h with h1
        subst h1
        have hwf0 : wfO kvs0 = true := by
          have := loads_wf hload
          simpa [wfV] using this
        have hwf1 : wfO kvs1 = true := coerceKeys_wfO scoreKeys kvs0 kvs1 hwf0 hco
        have hpost := (coerceKeys_pres_post scoreKeys kvs0 kvs1 hco).2
        have hne : kvs1 ≠ .nil := by
          intro hh
          obtain ⟨n, hn⟩ := hpost ("fair_match".toList) (by simp [scoreKeys])
          rw [hh] at hn
          simp [lookupObj] at hn
        cases kvs1 with
        | nil => exact absurd rfl hne
        | cons k1 v1 tl1 =>
          have hser : dumps (.obj (.cons k1 v1 tl1)) =
              '\x7b' :: (serMembers (.cons k1 v1 tl1) ++ ['\x7d']) := rfl
          unfold matchCvRecover
          rw [hser, braceExtract_wrap (serMembers (.cons k1 v1 tl1)), ← hser]
          dsimp only
          rw [loads_dumps (show wfV (.obj (.cons k1 v1 tl1)) = true from by
            simpa [wfV] using hwf1)]
          show (match coerceKeys scoreKeys (JObj.cons k1 v1 tl1) with
                | Except.ok kvs' => Except.ok kvs'
                | Except.error e =>
                  Except.error (ScoreErr.exn (dumps (JValue.obj (JObj.cons k1 v1 tl1))) e)) =
            Except.ok (JObj.cons k1 v1 tl1)
          rw [coerceKeys_fix scoreKeys (JObj.cons k1 v1 tl1) hpost]
      · exact Except.noConfusion h
    · exact Except.noConfusion h

/-- C5: JSON recovery is idempotent.  Whenever Strategy A
(`modifyCvJsonRecover`, the /cv/modify-json flow) succeeds with
structured value `v`, re-running the same recovery on the
re-serialization `dumps v` succeeds and returns the same `v`; and
whenever Strategy B (`matchCvRecover`, the /match-cv-description/ flow)
succeeds with score object `kvs`, re-running it on the re-serialization
of that object succeeds and returns the same `kvs`. -/
theorem C5_idempotent_recovery :
    (∀ s v, modifyCvJsonRecover s = .ok v →
        modifyCvJsonRecover (dumps v) = .ok v) ∧
    (∀ s kvs, matchCvRecover s = .ok kvs →
        matchCvRecover (dumps (.obj kvs)) = .ok kvs) :=
  ⟨fun _ _ h => modifyCvJson_idem h, fun _ _ h => matchCv_idem h⟩

theorem C5_idempotent_recovery_witness :
    modifyCvJsonRecover (("\x7b\"a\": 1\x7d").toList) =
      Except.ok (JValue.obj (JObj.cons ("a").toList (JValue.jint 1) JObj.nil)) ∧
    modifyCvJsonRecover (dumps (JValue.obj (JObj.cons ("a").toList (JValue.jint 1) JObj.nil))) =
      Except.ok (JValue.obj (JObj.cons ("a").toList (JValue.jint 1) JObj.nil)) ∧
    matchCvRecover
        (("\x7b\"fair_match\": 80, \"exp_level\": 70, \"skill\": 90, \"industry_exp\": 75\x7d").toList) =
      Except.ok (JObj.cons ("fair_match").toList (JValue.jint 80)
        (JObj.cons ("exp_level").toList (JValue.jint 70)
          (JObj.cons ("skill").toList (JValue.jint 90)
            (JObj.cons ("industry_exp").toList (JValue.jint 75) JObj.nil)))) ∧
    matchCvRecover (dumps (JValue.obj (JObj.cons ("fair_match").toList (JValue.jint 80)
        (JObj.cons ("exp_level").toList (JValue.jint 70)
          (JObj.cons ("skill").toList (JValue.jint 90)
            (JObj.cons ("industry_exp").toList (JValue.jint 75) JObj.nil)))))) =
      Except.ok (JObj.cons ("fair_match").toList (JValue.jint 80)
        (JObj.cons ("exp_level").toList (JValue.jint 70)
          (JObj.cons ("skill").toList (JValue.jint 90)
            (JObj.cons ("industry_exp").toList (JValue.jint 75) JObj.nil)))) :=
  ⟨by decide,
   C5_idempotent_recovery.1 (("\x7b\"a\": 1\x7d").toList) _ (by decide),
   by decide,
   C5_idempotent_recovery.2
     (("\x7b\"fair_match\": 80, \"exp_level\": 70, \"skill\": 90, \"industry_exp\": 75\x7d").toList)
     _ (by decide)⟩
